import Mathlib

/-!
Verification of the wordwarden spellcheck script (src/spellcheck.py).

The script's pure string logic is embedded as executable Lean functions on
`List Char`; the external collaborators (pandoc, aspell, the filesystem,
glob expansion) are modelled as oracles passed in explicitly.  Python
strings become `List Char`, Python `str.replace` / `str.strip` /
`str.split` are re-implemented with Python's exact semantics, the
`print`-based report becomes a list of structured output items, and the
two possible abnormal terminations (`SpellcheckError` caught at top level,
an uncaught `IndexError` from `print_words_context`) become explicit
result constructors.
-/

/-- Python's default whitespace set for `str.strip` (ASCII part). -/
def isPySpace (c : Char) : Bool :=
  c = ' ' || c = '\t' || c = '\n' || c = '\x0d' || c = '\x0b' || c = '\x0c'

/-- Python `str.lstrip()`. -/
def pyLstrip (s : List Char) : List Char := s.dropWhile isPySpace

/-- Python `str.rstrip()`. -/
def pyRstrip (s : List Char) : List Char := (s.reverse.dropWhile isPySpace).reverse

/-- Python `str.strip()`. -/
def pyStrip (s : List Char) : List Char := pyRstrip (pyLstrip s)

/-- Python `s.split("\n")`: the empty string yields `[""]`, and every
newline separates two (possibly empty) fields. -/
def splitNl : List Char → List (List Char)
  | [] => [[]]
  | c :: cs =>
    if c = '\n' then [] :: splitNl cs
    else
      match splitNl cs with
      | [] => [[c]]
      | p :: ps => (c :: p) :: ps

/-- Executable test that `w` is a leading segment of `s` (Python
`s.startswith(w)`). -/
def isPre : List Char → List Char → Bool
  | [], _ => true
  | _ :: _, [] => false
  | a :: as, b :: bs => a = b && isPre as bs

/-- Executable embedding of Python's substring test `w in s`. -/
def containsSub : List Char → List Char → Bool
  | w, [] => w.isEmpty
  | w, c :: cs => isPre w (c :: cs) || containsSub w cs

/-- Worker for `pyReplace`, fuelled so that it is structurally recursive
and reduces inside the kernel.  The fuel is always instantiated with the
length of the scanned string, which suffices because every step consumes
at least one character. -/
def pyReplaceGo (w r : List Char) : Nat → List Char → List Char
  | _, [] => []
  | 0, s => s
  | fuel + 1, c :: cs =>
    if isPre w (c :: cs) then r ++ pyReplaceGo w r fuel (cs.drop (w.length - 1))
    else c :: pyReplaceGo w r fuel cs

/-- Python `s.replace(w, r)`: leftmost, non-overlapping replacement of
every occurrence; an empty pattern interleaves `r` at every position. -/
def pyReplace (s w r : List Char) : List Char :=
  if w = [] then r ++ s.foldr (fun c acc => c :: (r ++ acc)) []
  else pyReplaceGo w r s.length s

theorem isPre_iff_leading (w s : List Char) : isPre w s = true ↔ w <+: s := by
  induction w generalizing s with
  | nil => simp [isPre]
  | cons a as ih =>
    cases s with
    | nil => simp [isPre]
    | cons b bs =>
      simp only [isPre, Bool.and_eq_true, decide_eq_true_eq, List.cons_prefix_cons]
      exact and_congr Iff.rfl (ih bs)

theorem containsSub_iff_occurs (w s : List Char) :
    containsSub w s = true ↔ w <:+: s := by
  induction s with
  | nil => simp [containsSub, List.isEmpty_iff]
  | cons c cs ih =>
    simp only [containsSub, Bool.or_eq_true, isPre_iff_leading, ih,
      List.infix_cons_iff]

theorem containsSub_of_middle (w a b : List Char) :
    containsSub w (a ++ w ++ b) = true := by
  rw [containsSub_iff_occurs]
  exact ⟨a, b, by simp⟩

/-- No occurrence ⇒ `pyReplaceGo` is the identity (any fuel). -/
theorem pyReplaceGo_of_not_contains (w r : List Char) (fuel : Nat)
    (s : List Char) (h : containsSub w s = false) :
    pyReplaceGo w r fuel s = s := by
  induction fuel generalizing s with
  | zero => cases s <;> rfl
  | succ fuel ih =>
    cases s with
    | nil => rfl
    | cons c cs =>
      simp only [containsSub, Bool.or_eq_false_iff] at h
      simp only [pyReplaceGo, h.1, Bool.false_eq_true, if_false]
      rw [ih cs h.2]

/-- Scanning past a region where the pattern never starts. -/
theorem pyReplaceGo_append (w r : List Char) (x y : List Char) (fuel : Nat)
    (h : ∀ i, i < x.length → isPre w ((x ++ y).drop i) = false) :
    pyReplaceGo w r (x.length + fuel) (x ++ y) = x ++ pyReplaceGo w r fuel y := by
  induction x with
  | nil => simp
  | cons c x' ih =>
    have h0 : isPre w (c :: (x' ++ y)) = false := by
      have := h 0 (by simp)
      simpa using this
    have hstep : ∀ i, i < x'.length → isPre w ((x' ++ y).drop i) = false := by
      intro i hi
      have := h (i + 1) (by simp; omega)
      simpa using this
    simp only [List.cons_append, List.length_cons]
    have : x'.length + 1 + fuel = (x'.length + fuel) + 1 := by omega
    rw [this]
    simp only [pyReplaceGo, h0, Bool.false_eq_true, if_false]
    rw [ih hstep]

/-- A match right at the head is replaced and the scanner jumps past it. -/
theorem pyReplaceGo_head (w r t : List Char) (fuel : Nat) (hw : w ≠ []) :
    pyReplaceGo w r (fuel + 1) (w ++ t) = r ++ pyReplaceGo w r fuel t := by
  cases w with
  | nil => exact absurd rfl hw
  | cons d w' =>
    have hpre : isPre (d :: w') (d :: (w' ++ t)) = true := by
      rw [isPre_iff_leading]
      exact ⟨t, by simp⟩
    simp only [List.cons_append, pyReplaceGo, List.length_cons,
      Nat.add_sub_cancel, List.append_eq]
    rw [List.drop_left, if_pos hpre]

/-! ### Decimal rendering of line numbers (Python `str(n)` / f-string padding) -/

/-- Character for a decimal digit. -/
def digitChar10 (d : Nat) : Char := Char.ofNat (48 + d)

/-- Fuelled decimal rendering; fuel `n + 1` always suffices. -/
def natStrF : Nat → Nat → List Char
  | 0, _ => []
  | fuel + 1, n =>
    if n < 10 then [digitChar10 n]
    else natStrF fuel (n / 10) ++ [digitChar10 (n % 10)]

/-- Python `str(n)` for a natural number. -/
def natStr (n : Nat) : List Char := natStrF (n + 1) n

theorem natStrF_fuel (f g n : Nat) (hf : n < f) (hg : n < g) :
    natStrF f n = natStrF g n := by
  induction n using Nat.strong_induction_on generalizing f g with
  | _ n ih =>
    match f, g with
    | f' + 1, g' + 1 =>
      by_cases h : n < 10
      · simp [natStrF, h]
      · have hd : n / 10 < n := Nat.div_lt_self (by omega) (by omega)
        simp only [natStrF, h, if_false]
        rw [ih (n / 10) hd f' g' (by omega) (by omega)]

theorem natStr_step (n : Nat) (h : ¬ n < 10) :
    natStr n = natStr (n / 10) ++ [digitChar10 (n % 10)] := by
  have hd : n / 10 < n := Nat.div_lt_self (by omega) (by omega)
  show natStrF (n + 1) n = _
  simp only [natStrF, h, if_false]
  rw [natStrF_fuel n (n / 10 + 1) (n / 10) hd (by omega)]
  rfl

theorem natStr_small (n : Nat) (h : n < 10) : natStr n = [digitChar10 n] := by
  simp [natStr, natStrF, h]

theorem natStr_length_mono {a b : Nat} (hab : a ≤ b) :
    (natStr a).length ≤ (natStr b).length := by
  induction b using Nat.strong_induction_on generalizing a with
  | _ b ih =>
    by_cases hb : b < 10
    · have ha : a < 10 := by omega
      rw [natStr_small a ha, natStr_small b hb]
      simp
    · rw [natStr_step b hb]
      by_cases ha : a < 10
      · rw [natStr_small a ha]
        simp
      · rw [natStr_step a ha]
        have hd : b / 10 < b := Nat.div_lt_self (by omega) (by omega)
        have := ih (b / 10) hd (Nat.div_le_div_right hab)
        simp only [List.length_append, List.length_cons, List.length_nil]
        omega

/-! ### Embedding of `print_words_context` -/

/-- ANSI escape `"\x1b[31m"` (the `RED` constant of the script). -/
def ansiRed : List Char := ['\x1b', '[', '3', '1', 'm']

/-- ANSI escape `"\x1b[0m"` (the `RESET` constant of the script). -/
def ansiReset : List Char := ['\x1b', '[', '0', 'm']

/-- One line of a file (Python keeps the trailing newline from `readlines`). -/
abbrev Line := List Char

/-- One flagged word. -/
abbrev Word := List Char

/-- Whether some flagged word occurs in `line` (the `word in line` tests of
the per-line loop, joined). -/
def isMatchLine (words : List Word) (line : Line) : Bool :=
  words.any fun w => containsSub w line

/-- The set `match_lines` of the script, as the ascending list of matching
0-based indices. -/
def matchLines (words : List Word) (content : List Line) : List Nat :=
  (List.range content.length).filter fun i => isMatchLine words (content.getD i [])

/-- The highlighted copy of one line: the inner `for word in words` loop.
The membership test runs against the original `line`; the replacement is
applied to the accumulated, already partially highlighted copy — exactly as
in the script. -/
def highlightLine (words : List Word) (line : Line) : Line :=
  words.foldl
    (fun acc w =>
      if containsSub w line then pyReplace acc w (ansiRed ++ w ++ ansiReset)
      else acc)
    line

/-- The mutated `content_lines` after the highlighting loop. -/
def highlighted (words : List Word) (content : List Line) : List Line :=
  content.map (highlightLine words)

/-- Insertion into a duplicate-free list, modelling `set.add`. -/
def insertNd (x : Nat) (s : List Nat) : List Nat :=
  if x ∈ s then s else x :: s

/-- One iteration of the `for match_line in match_lines` loop: add
`match_line - 1` when positive, `match_line + 1` when not on the last
line, and `match_line` itself. -/
def addCtx (n : Nat) (s : List Nat) (m : Nat) : List Nat :=
  insertNd m (if m + 1 < n then insertNd (m + 1) (if 0 < m then insertNd (m - 1) s else s)
    else if 0 < m then insertNd (m - 1) s else s)

/-- The set `print_lines` of the script (as a duplicate-free list). -/
def printList (n : Nat) (ms : List Nat) : List Nat := ms.foldl (addCtx n) []

/-- Python `sorted(print_lines)`. -/
def sortedPrint (n : Nat) (ms : List Nat) : List Nat :=
  (printList n ms).insertionSort (· ≤ ·)

/-- The script's `line_number_width = len(str(len(content_lines) + 1))`. -/
def lineWidth (n : Nat) : Nat := (natStr (n + 1)).length

/-- The string `f"{print_line + 1:{line_number_width}}:"`: the 1-based line
number right-padded on the left with spaces to `width`, then a colon. -/
def numStr (width p : Nat) : List Char :=
  List.replicate (width - (natStr (p + 1)).length) ' ' ++ natStr (p + 1) ++ [':']

/-- One printed record of the context report: a separator rule, or one
numbered line (we keep the 0-based index, the rendered number label, and
the highlighted text). -/
inductive OutItem where
  | sep : OutItem
  | line : Nat → List Char → List Char → OutItem
deriving DecidableEq

/-- The printing loop over `sorted(print_lines)`, carrying
`last_print_line`.  The gap test is Python's `print_line - last_print_line
> 1` on integers. -/
def renderLoop (width : Nat) (hl : List Line) : Nat → List Nat → List OutItem
  | _, [] => []
  | last, p :: ps =>
    (if (1 : Int) < (p : Int) - (last : Int) then [OutItem.sep] else []) ++
      OutItem.line p (numStr width p) (hl.getD p []) :: renderLoop width hl p ps

/-- Embedding of `print_words_context`.  `content` is the result of
`readlines()` on the file and `words` the stored misspelled-word list.
`none` models the uncaught `IndexError` raised by
`sorted(print_lines)[0]` when no word matches any line. -/
def print_words_context (content : List Line) (words : List Word) :
    Option (List OutItem) :=
  match sortedPrint content.length (matchLines words content) with
  | [] => none
  | first :: rest =>
    some (renderLoop (lineWidth content.length) (highlighted words content)
      first (first :: rest))

/-- The 0-based indices of the printed lines, in print order. -/
def outIdxs (items : List OutItem) : List Nat :=
  items.filterMap fun it =>
    match it with
    | OutItem.sep => none
    | OutItem.line p _ _ => some p

/-! ### Embedding of `main` (CLI glue, Spellcheck Invoker, Result Aggregator) -/

/-- The `CheckedFile` record of the script. -/
structure CheckedFile where
  filepath : String
  misspelled_words : List Word
deriving DecidableEq

/-- Command-line arguments after `argparse` and after the
`glob.glob(args.files, recursive=True)` expansion: `files` is the ordered
list of matched paths. -/
structure Args where
  files : List String
  document_language : String
  dictionary_path : String

/-- The external collaborators of one run, as deterministic oracles:

* `prune`: the whole `prune_content` call for a file path (it shells out
  to pandoc twice and may raise `SpellcheckError`, modelled as `.error`);
* `dictExists`: `Path(args.dictionary_path).exists()`;
* `aspell`: standard output of the aspell subprocess as a function of its
  standard input (the pruned content); `.error` models a
  `CalledProcessError`;
* `readLines`: `open(filepath).readlines()` for the context report. -/
structure Oracles where
  prune : String → Except String (List Char)
  dictExists : Bool
  aspell : List Char → Except String (List Char)
  readLines : String → List Line

/-- The script's message for a missing personal dictionary. -/
def dictMsg : String := "No file exists at the specified dictionary path."

/-- Parsing of the aspell output into the stored misspelled-word list:
`[w.strip() for w in result.stdout.strip().split("\n")]`. -/
def parseWords (sout : List Char) : List Word :=
  (splitNl (pyStrip sout)).map pyStrip

/-- The per-file loop of `main`, producing `(good_files, bad_files)` in
file order.  For each file: prune, then (if the dictionary path is truthy,
i.e. non-empty) check the dictionary's existence, then run aspell, then
classify on the truthiness of the stripped standard output.  Any
`SpellcheckError` aborts the whole loop. -/
def checkFiles (or : Oracles) (args : Args) :
    List String → Except String (List CheckedFile × List CheckedFile)
  | [] => Except.ok ([], [])
  | fp :: rest =>
    match or.prune fp with
    | Except.error e => Except.error e
    | Except.ok pruned =>
      if args.dictionary_path ≠ "" ∧ or.dictExists = false then
        Except.error dictMsg
      else
        match or.aspell pruned with
        | Except.error _ => Except.error ("Failed to spellcheck " ++ fp)
        | Except.ok sout =>
          match checkFiles or args rest with
          | Except.error e => Except.error e
          | Except.ok (g, b) =>
            if pyStrip sout = [] then
              Except.ok (⟨fp, []⟩ :: g, b)
            else
              Except.ok (g, ⟨fp, parseWords sout⟩ :: b)

/-- One structured record of the aggregator's report (the surrounding
prose lines of the report are not modelled): the clean-file list, one
file's context report, or one file's deduplicated flagged-word list. -/
inductive RItem where
  | cleanList : List String → RItem
  | context : String → List OutItem → RItem
  | badWords : String → List Word → RItem
deriving DecidableEq

/-- The `for bad_file in bad_files` reporting loop.  `none` models the
uncaught `IndexError` of `print_words_context`.  The flagged-word list is
printed from `set(bad_file.misspelled_words)`; since Python's set
iteration order is unspecified, only the element inventory is modelled,
via `List.dedup`. -/
def reportBad (or : Oracles) : List CheckedFile → Option (List RItem)
  | [] => some []
  | cf :: rest =>
    match print_words_context (or.readLines cf.filepath) cf.misspelled_words with
    | none => none
    | some items =>
      match reportBad or rest with
      | none => none
      | some more =>
        some (RItem.context cf.filepath items ::
          RItem.badWords cf.filepath cf.misspelled_words.dedup :: more)

/-- How one run of the script terminates: a normal return from `main`
with an exit code and the report, a `SpellcheckError` caught by the
`__main__` handler (which prints the message and exits 1), or an uncaught
`IndexError` (Python prints a traceback and exits 1). -/
inductive RunOutcome where
  | normal : Nat → List RItem → RunOutcome
  | fatal : String → RunOutcome
  | crash : RunOutcome
deriving DecidableEq

/-- The process exit status of each outcome. -/
def exitOf : RunOutcome → Nat
  | RunOutcome.normal c _ => c
  | RunOutcome.fatal _ => 1
  | RunOutcome.crash => 1

/-- Embedding of `main` plus the `__main__` wrapper: run the per-file
loop, print the clean-file summary, then (if any bad file) the per-file
context reports and word lists, and return 1; otherwise return 0. -/
def mainRun (or : Oracles) (args : Args) : RunOutcome :=
  match checkFiles or args args.files with
  | Except.error e => RunOutcome.fatal e
  | Except.ok (g, b) =>
    let goodOut : List RItem :=
      if g = [] then [] else [RItem.cleanList (g.map (fun cf => cf.filepath))]
    if b = [] then RunOutcome.normal 0 goodOut
    else
      match reportBad or b with
      | none => RunOutcome.crash
      | some items => RunOutcome.normal 1 (goodOut ++ items)

/-! ### A spec-side renderer for the context report (claim C8) -/

/-- Follows the claim's words for every printed line after the first: a
separator rule is emitted exactly when the line's index exceeds the
previously printed line's index by more than 1. -/
def specRenderRest (width : Nat) (hl : List Line) : Nat → List Nat → List OutItem
  | _, [] => []
  | prev, p :: ps =>
    (if prev + 1 < p then [OutItem.sep] else []) ++
      OutItem.line p (numStr width p) (hl.getD p []) :: specRenderRest width hl p ps

/-- Follows the claim's words: print the lines in order, with no
separator before the very first printed line. -/
def specRender (width : Nat) (hl : List Line) : List Nat → List OutItem
  | [] => []
  | p :: ps =>
    OutItem.line p (numStr width p) (hl.getD p []) :: specRenderRest width hl p ps

/-! ### Embedding of `prune_content` (Content Pruner)

`prune_content` shells out to pandoc (file → HTML), manipulates the parsed
HTML tree with BeautifulSoup, strips raw `https://` tokens with a regex,
and shells out to pandoc again (HTML → markdown).  The in-repository logic
is the tree manipulation and the regex; the two pandoc conversions are
external collaborators.  A document is therefore modelled at the level the
script actually works on: the parsed HTML node forest. -/

/-- A parsed HTML node: a text node, or an element with a tag, its
`class` list, its attributes, and its children. -/
inductive HNode where
  | text : List Char → HNode
  | elem : String → List String → List (String × List Char) → List HNode → HNode

mutual

/-- BeautifulSoup `get_text()`: the concatenation of all descendant text. -/
def getText : HNode → List Char
  | HNode.text s => s
  | HNode.elem _ _ _ cs => getTextL cs

/-- `get_text()` over a node list. -/
def getTextL : List HNode → List Char
  | [] => []
  | n :: ns => getText n ++ getTextL ns

end

mutual

/-- First pass: `for code_tag in soup.find_all("code"): code_tag.decompose()` —
every `code` element vanishes with its whole subtree. -/
def removeCode : HNode → Option HNode
  | HNode.text s => some (HNode.text s)
  | HNode.elem tag cls attrs cs =>
    if tag = "code" then none
    else some (HNode.elem tag cls attrs (removeCodeL cs))

/-- Code removal over a node list. -/
def removeCodeL : List HNode → List HNode
  | [] => []
  | n :: ns =>
    match removeCode n with
    | none => removeCodeL ns
    | some m => m :: removeCodeL ns

end

mutual

/-- Second pass: `soup.find_all("div", class_="sourceCode")` decomposed —
every `div` carrying the `sourceCode` class vanishes with its subtree. -/
def removeSrcDiv : HNode → Option HNode
  | HNode.text s => some (HNode.text s)
  | HNode.elem tag cls attrs cs =>
    if tag = "div" ∧ "sourceCode" ∈ cls then none
    else some (HNode.elem tag cls attrs (removeSrcDivL cs))

/-- Source-code-div removal over a node list. -/
def removeSrcDivL : List HNode → List HNode
  | [] => []
  | n :: ns =>
    match removeSrcDiv n with
    | none => removeSrcDivL ns
    | some m => m :: removeSrcDivL ns

end

mutual

/-- Third pass: `a_tag.replace_with(a_tag.get_text())` — every anchor is
replaced by a text node holding its visible text; the `href` target is
dropped with the element. -/
def flattenA : HNode → HNode
  | HNode.text s => HNode.text s
  | HNode.elem tag cls attrs cs =>
    if tag = "a" then HNode.text (getTextL cs)
    else HNode.elem tag cls attrs (flattenAL cs)

/-- Anchor flattening over a node list. -/
def flattenAL : List HNode → List HNode
  | [] => []
  | n :: ns => flattenA n :: flattenAL ns

end

/-- The three BeautifulSoup passes in the script's order. -/
def pruneDoc (d : List HNode) : List HNode :=
  flattenAL (removeSrcDivL (removeCodeL d))

/-- The characters of the literal `"https://"`. -/
def httpsChars : List Char := ['h', 't', 't', 'p', 's', ':', '/', '/']

/-- Worker for `stripHttps`, fuelled for kernel reduction: on a match of
`https://` the scanner removes the maximal run of non-whitespace starting
there (the regex `https://[\S]*`) and resumes after it. -/
def stripHttpsGo : Nat → List Char → List Char
  | _, [] => []
  | 0, s => s
  | fuel + 1, c :: cs =>
    if isPre httpsChars (c :: cs) then
      stripHttpsGo fuel (cs.dropWhile fun ch => !(isPySpace ch))
    else c :: stripHttpsGo fuel cs

/-- The script's `re.sub(r"https://[\S]*", "", ...)`. -/
def stripHttps (s : List Char) : List Char := stripHttpsGo s.length s

/-- Modelled from the spec: the second pandoc conversion
(HTML → plain markdown rendering) is an external collaborator missing
from src/; per the spec its output is the semantically equivalent prose
of the pruned tree, modelled as the tree's text content.  (In the script
the regex runs on the serialized HTML just before this conversion; here
it is applied to the rendered text, on which it acts the same way.) -/
def renderMarkdown (d : List HNode) : List Char := getTextL d

/-- Embedding of `prune_content`, from the parsed HTML forest of the
document to the pruned plain text handed to the spellchecker. -/
def prune_content (d : List HNode) : List Char :=
  stripHttps (renderMarkdown (pruneDoc d))

/-- Whether the children of an anchor are exactly the plain visible text
`txt` — the shape pandoc produces for a markdown link `[txt](url)`. -/
def anchorText (txt : List Char) : List HNode → Bool
  | [HNode.text s] => s = txt
  | _ => false

mutual

/-- Whether the document contains the hyperlink `[txt](url)`: an `a`
element with `href = url` whose content is the plain text `txt`, not
buried inside a removed `code` element or `sourceCode` div. -/
def hasLink (txt url : List Char) : HNode → Bool
  | HNode.text _ => false
  | HNode.elem tag cls attrs cs =>
    if tag = "code" ∨ (tag = "div" ∧ "sourceCode" ∈ cls) then false
    else
      (tag = "a" && anchorText txt cs && attrs.lookup "href" = some url) ||
        hasLinkL txt url cs

/-- Hyperlink search over a node list. -/
def hasLinkL (txt url : List Char) : List HNode → Bool
  | [] => false
  | n :: ns => hasLink txt url n || hasLinkL txt url ns

end

/-! ### Lemmas about the print-line set and the rendering loop -/

theorem mem_insertNd (x y : Nat) (s : List Nat) :
    x ∈ insertNd y s ↔ x = y ∨ x ∈ s := by
  unfold insertNd
  by_cases h : y ∈ s
  · simp only [h, if_true]
    constructor
    · exact fun hx => Or.inr hx
    · rintro (rfl | hx)
      · exact h
      · exact hx
  · simp [h]

theorem nodup_insertNd (y : Nat) (s : List Nat) (hs : s.Nodup) :
    (insertNd y s).Nodup := by
  unfold insertNd
  by_cases h : y ∈ s
  · simpa [h]
  · simp [h, hs]

theorem mem_addCtx (n : Nat) (s : List Nat) (m i : Nat) :
    i ∈ addCtx n s m ↔
      i ∈ s ∨ i = m ∨ (0 < m ∧ i = m - 1) ∨ (m + 1 < n ∧ i = m + 1) := by
  unfold addCtx
  by_cases h1 : m + 1 < n <;> by_cases h2 : 0 < m <;>
    simp [h1, h2, mem_insertNd] <;> tauto

theorem nodup_addCtx (n : Nat) (s : List Nat) (m : Nat) (hs : s.Nodup) :
    (addCtx n s m).Nodup := by
  unfold addCtx
  by_cases h1 : m + 1 < n <;> by_cases h2 : 0 < m <;>
    simp only [h1, h2, if_true, if_false] <;>
    repeat' apply nodup_insertNd
  all_goals exact hs

theorem mem_foldl_addCtx (n : Nat) (ms : List Nat) (s : List Nat) (i : Nat) :
    i ∈ ms.foldl (addCtx n) s ↔
      i ∈ s ∨ ∃ m ∈ ms, i = m ∨ (0 < m ∧ i = m - 1) ∨ (m + 1 < n ∧ i = m + 1) := by
  induction ms generalizing s with
  | nil => simp
  | cons m ms ih =>
    simp only [List.foldl_cons, ih, mem_addCtx, List.mem_cons]
    constructor
    · rintro ((h | h) | ⟨m', hm', h⟩)
      · exact Or.inl h
      · exact Or.inr ⟨m, Or.inl rfl, h⟩
      · exact Or.inr ⟨m', Or.inr hm', h⟩
    · rintro (h | ⟨m', (rfl | hm'), h⟩)
      · exact Or.inl (Or.inl h)
      · exact Or.inl (Or.inr h)
      · exact Or.inr ⟨m', hm', h⟩

theorem mem_printList (n : Nat) (ms : List Nat) (i : Nat) :
    i ∈ printList n ms ↔
      ∃ m ∈ ms, i = m ∨ (0 < m ∧ i = m - 1) ∨ (m + 1 < n ∧ i = m + 1) := by
  unfold printList
  rw [mem_foldl_addCtx]
  simp

theorem nodup_printList (n : Nat) (ms : List Nat) : (printList n ms).Nodup := by
  unfold printList
  have : ∀ (l : List Nat) (s : List Nat), s.Nodup → (l.foldl (addCtx n) s).Nodup := by
    intro l
    induction l with
    | nil => exact fun s hs => hs
    | cons m ms ih =>
      intro s hs
      exact ih _ (nodup_addCtx n s m hs)
  exact this ms [] List.nodup_nil

theorem mem_sortedPrint (n : Nat) (ms : List Nat) (i : Nat) :
    i ∈ sortedPrint n ms ↔ i ∈ printList n ms := by
  unfold sortedPrint
  exact (List.perm_insertionSort (· ≤ ·) (printList n ms)).mem_iff

theorem sortedPrint_sorted_lt (n : Nat) (ms : List Nat) :
    (sortedPrint n ms).Sorted (· < ·) := by
  have hs : (sortedPrint n ms).Sorted (· ≤ ·) :=
    List.sorted_insertionSort (· ≤ ·) (printList n ms)
  have hn : (sortedPrint n ms).Nodup :=
    ((List.perm_insertionSort (· ≤ ·) (printList n ms)).nodup_iff).mpr
      (nodup_printList n ms)
  exact List.Sorted.lt_of_le hs hn

theorem mem_matchLines (words : List Word) (content : List Line) (i : Nat) :
    i ∈ matchLines words content ↔
      i < content.length ∧ isMatchLine words (content.getD i []) = true := by
  unfold matchLines
  rw [List.mem_filter, List.mem_range]

theorem isMatchLine_iff (words : List Word) (line : Line) :
    isMatchLine words line = true ↔ ∃ w ∈ words, w <:+: line := by
  unfold isMatchLine
  rw [List.any_eq_true]
  constructor
  · rintro ⟨w, hw, hc⟩
    exact ⟨w, hw, (containsSub_iff_occurs w line).mp hc⟩
  · rintro ⟨w, hw, hc⟩
    exact ⟨w, hw, (containsSub_iff_occurs w line).mpr hc⟩

theorem outIdxs_renderLoop (width : Nat) (hl : List Line) (last : Nat)
    (ps : List Nat) : outIdxs (renderLoop width hl last ps) = ps := by
  induction ps generalizing last with
  | nil => rfl
  | cons p ps ih =>
    by_cases h : (1 : Int) < (p : Int) - (last : Int) <;>
      simp [renderLoop, outIdxs, h, ih p] <;>
      simpa [outIdxs] using ih p

theorem line_mem_renderLoop (width : Nat) (hl : List Line) (last : Nat)
    (ps : List Nat) (p : Nat) (s t : List Char)
    (h : OutItem.line p s t ∈ renderLoop width hl last ps) :
    p ∈ ps ∧ s = numStr width p ∧ t = hl.getD p [] := by
  induction ps generalizing last with
  | nil => simp [renderLoop] at h
  | cons q qs ih =>
    by_cases hg : (1 : Int) < (q : Int) - (last : Int) <;>
      simp only [renderLoop, hg, if_true, if_false, List.cons_append,
        List.nil_append, List.mem_cons, List.singleton_append] at h
    · rcases h with h | h | h
      · cases h
      · obtain ⟨rfl, rfl, rfl⟩ := OutItem.line.inj h.symm
        exact ⟨List.mem_cons_self q qs, rfl, rfl⟩
      · obtain ⟨hp, hs, ht⟩ := ih q h
        exact ⟨List.mem_cons_of_mem q hp, hs, ht⟩
    · rcases h with h | h
      · obtain ⟨rfl, rfl, rfl⟩ := OutItem.line.inj h.symm
        exact ⟨List.mem_cons_self q qs, rfl, rfl⟩
      · obtain ⟨hp, hs, ht⟩ := ih q h
        exact ⟨List.mem_cons_of_mem q hp, hs, ht⟩

theorem renderLoop_eq_specRenderRest (width : Nat) (hl : List Line)
    (prev : Nat) (ps : List Nat) :
    renderLoop width hl prev ps = specRenderRest width hl prev ps := by
  induction ps generalizing prev with
  | nil => rfl
  | cons p ps ih =>
    have hgap : ((1 : Int) < (p : Int) - (prev : Int)) ↔ prev + 1 < p := by
      omega
    by_cases h : prev + 1 < p
    · simp [renderLoop, specRenderRest, hgap, h, ih p]
    · simp [renderLoop, specRenderRest, hgap, h, ih p]

theorem renderLoop_head_eq_specRender (width : Nat) (hl : List Line)
    (p : Nat) (ps : List Nat) :
    renderLoop width hl p (p :: ps) = specRender width hl (p :: ps) := by
  have hgap : ¬ ((1 : Int) < (p : Int) - (p : Int)) := by omega
  simp [renderLoop, specRender, hgap, renderLoop_eq_specRenderRest]

theorem print_words_context_eq_none (content : List Line) (words : List Word)
    (h : sortedPrint content.length (matchLines words content) = []) :
    print_words_context content words = none := by
  unfold print_words_context
  rw [h]

theorem print_words_context_eq_some (content : List Line) (words : List Word)
    (first : Nat) (rest : List Nat)
    (h : sortedPrint content.length (matchLines words content) = first :: rest) :
    print_words_context content words =
      some (renderLoop (lineWidth content.length) (highlighted words content)
        first (first :: rest)) := by
  unfold print_words_context
  rw [h]

theorem print_words_context_some_inv (content : List Line) (words : List Word)
    (items : List OutItem)
    (h : print_words_context content words = some items) :
    ∃ first rest,
      sortedPrint content.length (matchLines words content) = first :: rest ∧
      items = renderLoop (lineWidth content.length) (highlighted words content)
        first (first :: rest) := by
  cases hs : sortedPrint content.length (matchLines words content) with
  | nil => rw [print_words_context_eq_none content words hs] at h; cases h
  | cons first rest =>
    refine ⟨first, rest, rfl, ?_⟩
    have h2 := print_words_context_eq_some content words first rest hs
    rw [h] at h2
    exact Option.some.inj h2

/-! ### Lemmas about the per-file loop and the aggregator -/

theorem splitNl_ne_nil (s : List Char) : splitNl s ≠ [] := by
  cases s with
  | nil => simp [splitNl]
  | cons c cs =>
    by_cases h : c = '\n'
    · simp [splitNl, h]
    · simp only [splitNl, h, if_false]
      cases splitNl cs <;> simp

theorem parseWords_ne_nil (sout : List Char) : parseWords sout ≠ [] := by
  unfold parseWords
  intro h
  exact splitNl_ne_nil (pyStrip sout) (List.map_eq_nil_iff.mp h)

/-- Unfolding equation for one step of the per-file loop. -/
theorem checkFiles_cons (or : Oracles) (args : Args) (fp : String)
    (rest : List String) :
    checkFiles or args (fp :: rest) =
      match or.prune fp with
      | Except.error e => Except.error e
      | Except.ok pruned =>
        if args.dictionary_path ≠ "" ∧ or.dictExists = false then
          Except.error dictMsg
        else
          match or.aspell pruned with
          | Except.error _ => Except.error ("Failed to spellcheck " ++ fp)
          | Except.ok sout =>
            match checkFiles or args rest with
            | Except.error e => Except.error e
            | Except.ok (g, b) =>
              if pyStrip sout = [] then
                Except.ok (⟨fp, []⟩ :: g, b)
              else
                Except.ok (g, ⟨fp, parseWords sout⟩ :: b) := rfl

/-- Everything `checkFiles` guarantees about a successful run: good files
carry an empty stored list and come from whitespace-only engine output,
bad files carry the non-empty parsed engine output, and the two lists
partition the input paths. -/
theorem checkFiles_spec (or : Oracles) (args : Args) (fps : List String)
    (g b : List CheckedFile) (h : checkFiles or args fps = Except.ok (g, b)) :
    (∀ cf ∈ g, cf.misspelled_words = [] ∧
      ∃ pr sout, or.prune cf.filepath = Except.ok pr ∧
        or.aspell pr = Except.ok sout ∧ pyStrip sout = []) ∧
    (∀ cf ∈ b, cf.misspelled_words ≠ [] ∧
      ∃ pr sout, or.prune cf.filepath = Except.ok pr ∧
        or.aspell pr = Except.ok sout ∧ pyStrip sout ≠ [] ∧
        cf.misspelled_words = parseWords sout) ∧
    (∀ fp, (g.map CheckedFile.filepath).count fp +
      (b.map CheckedFile.filepath).count fp = fps.count fp) := by
  induction fps generalizing g b with
  | nil =>
    simp only [checkFiles] at h
    obtain ⟨hg, hb⟩ := Prod.mk.inj (Except.ok.inj h)
    subst hg; subst hb
    simp
  | cons fp rest ih =>
    rw [checkFiles_cons] at h
    cases hpr : or.prune fp with
    | error e => rw [hpr] at h; simp at h
    | ok pruned =>
      rw [hpr] at h
      simp only [] at h
      by_cases hd : args.dictionary_path ≠ "" ∧ or.dictExists = false
      · rw [if_pos hd] at h; simp at h
      · rw [if_neg hd] at h
        cases hsp : or.aspell pruned with
        | error e => rw [hsp] at h; simp at h
        | ok sout =>
          rw [hsp] at h
          simp only [] at h
          cases hrec : checkFiles or args rest with
          | error e => rw [hrec] at h; simp at h
          | ok gb =>
            obtain ⟨g', b'⟩ := gb
            rw [hrec] at h
            simp only [] at h
            obtain ⟨hg', hb', hcnt⟩ := ih g' b' hrec
            by_cases hcls : pyStrip sout = []
            · rw [if_pos hcls] at h
              obtain ⟨hgeq, hbeq⟩ := Prod.mk.inj (Except.ok.inj h)
              subst hgeq; subst hbeq
              refine ⟨?_, hb', ?_⟩
              · intro cf hcf
                rcases List.mem_cons.mp hcf with rfl | hcf
                · exact ⟨rfl, pruned, sout, hpr, hsp, hcls⟩
                · exact hg' cf hcf
              · intro p
                simp only [List.map_cons, List.count_cons]
                rw [← hcnt p]
                ring
            · rw [if_neg hcls] at h
              obtain ⟨hgeq, hbeq⟩ := Prod.mk.inj (Except.ok.inj h)
              subst hgeq; subst hbeq
              refine ⟨hg', ?_, ?_⟩
              · intro cf hcf
                rcases List.mem_cons.mp hcf with rfl | hcf
                · exact ⟨parseWords_ne_nil sout, pruned, sout, hpr, hsp, hcls, rfl⟩
                · exact hb' cf hcf
              · intro p
                simp only [List.map_cons, List.count_cons]
                rw [← hcnt p]
                ring

/-- Unfolding equation for `mainRun` after a successful per-file loop. -/
theorem mainRun_ok (or : Oracles) (args : Args) (g b : List CheckedFile)
    (h : checkFiles or args args.files = Except.ok (g, b)) :
    mainRun or args =
      (if b = [] then
        RunOutcome.normal 0 (if g = [] then [] else
          [RItem.cleanList (g.map (fun cf => cf.filepath))])
      else
        match reportBad or b with
        | none => RunOutcome.crash
        | some items => RunOutcome.normal 1
            ((if g = [] then [] else
              [RItem.cleanList (g.map (fun cf => cf.filepath))]) ++ items)) := by
  unfold mainRun
  rw [h]

/-- Inversion of a normal termination of `main`. -/
theorem mainRun_normal_inv (or : Oracles) (args : Args) (c : Nat)
    (out : List RItem) (h : mainRun or args = RunOutcome.normal c out) :
    ∃ g b, checkFiles or args args.files = Except.ok (g, b) ∧
      ((b = [] ∧ c = 0 ∧
        out = if g = [] then [] else
          [RItem.cleanList (g.map (fun cf => cf.filepath))]) ∨
       (b ≠ [] ∧ c = 1 ∧ ∃ items, reportBad or b = some items ∧
        out = (if g = [] then [] else
          [RItem.cleanList (g.map (fun cf => cf.filepath))]) ++ items)) := by
  cases hcf : checkFiles or args args.files with
  | error e => unfold mainRun at h; rw [hcf] at h; simp at h
  | ok gb =>
    obtain ⟨g, b⟩ := gb
    rw [mainRun_ok or args g b hcf] at h
    refine ⟨g, b, rfl, ?_⟩
    by_cases hb : b = []
    · rw [if_pos hb] at h
      obtain ⟨rfl, rfl⟩ := RunOutcome.normal.inj h.symm
      exact Or.inl ⟨hb, rfl, rfl⟩
    · rw [if_neg hb] at h
      cases hrb : reportBad or b with
      | none => rw [hrb] at h; simp at h
      | some items =>
        rw [hrb] at h
        simp only [] at h
        obtain ⟨rfl, rfl⟩ := RunOutcome.normal.inj h.symm
        exact Or.inr ⟨hb, rfl, items, rfl, rfl⟩

/-- Unfolding equation for one step of the bad-file reporting loop. -/
theorem reportBad_cons (or : Oracles) (cf : CheckedFile)
    (rest : List CheckedFile) :
    reportBad or (cf :: rest) =
      match print_words_context (or.readLines cf.filepath) cf.misspelled_words with
      | none => none
      | some items =>
        match reportBad or rest with
        | none => none
        | some more =>
          some (RItem.context cf.filepath items ::
            RItem.badWords cf.filepath cf.misspelled_words.dedup :: more) := rfl

/-- Where a `badWords` record in the report comes from. -/
theorem reportBad_badWords_inv (or : Oracles) (l : List CheckedFile)
    (items : List RItem) (fp : String) (ws : List Word)
    (h : reportBad or l = some items) (hmem : RItem.badWords fp ws ∈ items) :
    ∃ cf ∈ l, cf.filepath = fp ∧ ws = cf.misspelled_words.dedup := by
  induction l generalizing items with
  | nil =>
    simp only [reportBad] at h
    obtain rfl := Option.some.inj h
    cases hmem
  | cons cf rest ih =>
    rw [reportBad_cons] at h
    cases hp : print_words_context (or.readLines cf.filepath) cf.misspelled_words with
    | none => rw [hp] at h; simp at h
    | some its =>
      rw [hp] at h
      simp only [] at h
      cases hr : reportBad or rest with
      | none => rw [hr] at h; simp at h
      | some more =>
        rw [hr] at h
        simp only [] at h
        obtain rfl := (Option.some.inj h).symm
        rcases List.mem_cons.mp hmem with hx | hmem'
        · cases hx
        · rcases List.mem_cons.mp hmem' with hx | hmem''
          · obtain ⟨rfl, rfl⟩ := RItem.badWords.inj hx.symm
            exact ⟨cf, List.mem_cons_self cf rest, rfl, rfl⟩
          · obtain ⟨cf', hcf', hfp, hws⟩ := ih more hr hmem''
            exact ⟨cf', List.mem_cons_of_mem cf hcf', hfp, hws⟩

/-! ### Lemmas about the `https://` stripping regex -/

theorem httpsChars_eq : httpsChars = 'h' :: ['t', 't', 'p', 's', ':', '/', '/'] := rfl

theorem dropWhile_head_not (p : Char → Bool) (l : List Char) (c : Char)
    (t : List Char) (h : l.dropWhile p = c :: t) : p c = false := by
  induction l with
  | nil => cases h
  | cons d ds ih =>
    by_cases hd : p d
    · rw [List.dropWhile_cons_of_pos hd] at h
      exact ih h
    · rw [List.dropWhile_cons_of_neg hd] at h
      obtain rfl := (List.cons.inj h).1
      exact Bool.of_not_eq_true hd

theorem length_dropWhile_le (p : Char → Bool) (l : List Char) :
    (l.dropWhile p).length ≤ l.length := by
  induction l with
  | nil => simp
  | cons d ds ih =>
    by_cases hd : p d
    · rw [List.dropWhile_cons_of_pos hd]
      simp only [List.length_cons]
      omega
    · rw [List.dropWhile_cons_of_neg hd]

theorem stripHttpsGo_zero (s : List Char) : stripHttpsGo 0 s = s := by
  cases s <;> rfl

theorem stripHttpsGo_nil (fuel : Nat) : stripHttpsGo fuel [] = [] := by
  cases fuel <;> rfl

/-- A whitespace-free leading segment of the stripped text was already a
leading segment of the input. -/
theorem stripHttpsGo_prefix (fuel : Nat) (s p : List Char)
    (hp : p <+: stripHttpsGo fuel s) (hns : ∀ c ∈ p, isPySpace c = false) :
    p <+: s := by
  induction fuel generalizing s p with
  | zero => rwa [stripHttpsGo_zero] at hp
  | succ fuel ih =>
    cases s with
    | nil => rwa [stripHttpsGo_nil] at hp
    | cons c cs =>
      by_cases hm : isPre httpsChars (c :: cs) = true
      · simp only [stripHttpsGo, hm, if_true] at hp
        have hdw := ih (cs.dropWhile fun ch => !(isPySpace ch)) p hp hns
        cases p with
        | nil => exact List.nil_prefix
        | cons d p' =>
          obtain ⟨t, ht⟩ := hdw
          have hdfalse := dropWhile_head_not (fun ch => !(isPySpace ch)) cs d (p' ++ t)
            (by simpa using ht.symm)
          have := hns d (List.mem_cons_self d p')
          simp [this] at hdfalse
      · have hm' : isPre httpsChars (c :: cs) = false := Bool.of_not_eq_true hm
        simp only [stripHttpsGo, hm', Bool.false_eq_true, if_false] at hp
        cases p with
        | nil => exact List.nil_prefix
        | cons d p' =>
          rw [List.cons_prefix_cons] at hp ⊢
          refine ⟨hp.1, ih cs p' hp.2 ?_⟩
          intro x hx
          exact hns x (List.mem_cons_of_mem d hx)

/-- The stripped text never contains `https://` any more. -/
theorem stripHttpsGo_no_https (fuel : Nat) (s : List Char)
    (hlen : s.length ≤ fuel) :
    containsSub httpsChars (stripHttpsGo fuel s) = false := by
  induction fuel generalizing s with
  | zero =>
    obtain rfl : s = [] := List.length_eq_zero.mp (Nat.le_zero.mp hlen)
    rw [stripHttpsGo_zero]
    decide
  | succ fuel ih =>
    cases s with
    | nil =>
      rw [stripHttpsGo_nil]
      decide
    | cons c cs =>
      have hcs : cs.length ≤ fuel := by
        simp only [List.length_cons] at hlen
        omega
      by_cases hm : isPre httpsChars (c :: cs) = true
      · simp only [stripHttpsGo, hm, if_true]
        exact ih _ (le_trans (length_dropWhile_le _ cs) hcs)
      · have hm' : isPre httpsChars (c :: cs) = false := Bool.of_not_eq_true hm
        simp only [stripHttpsGo, hm', Bool.false_eq_true, if_false]
        have htail : containsSub httpsChars (stripHttpsGo fuel cs) = false := ih cs hcs
        have hhead : isPre httpsChars (c :: stripHttpsGo fuel cs) = false := by
          by_contra hne
          have htrue : isPre httpsChars (c :: stripHttpsGo fuel cs) = true :=
            Bool.of_not_eq_false hne
          rw [isPre_iff_leading, httpsChars_eq, List.cons_prefix_cons] at htrue
          obtain ⟨hc, hT⟩ := htrue
          have hTs : ['t', 't', 'p', 's', ':', '/', '/'] <+: cs :=
            stripHttpsGo_prefix fuel cs _ hT (by decide)
          have hcontra : isPre httpsChars (c :: cs) = true := by
            rw [isPre_iff_leading, httpsChars_eq, List.cons_prefix_cons]
            exact ⟨hc, hTs⟩
          exact hm hcontra
        simp [containsSub, hhead, htail]

/-- No `https://` in the input ⇒ the regex substitution is the identity. -/
theorem stripHttpsGo_id (fuel : Nat) (s : List Char)
    (h : containsSub httpsChars s = false) : stripHttpsGo fuel s = s := by
  induction fuel generalizing s with
  | zero => exact stripHttpsGo_zero s
  | succ fuel ih =>
    cases s with
    | nil => rfl
    | cons c cs =>
      simp only [containsSub, Bool.or_eq_false_iff] at h
      simp only [stripHttpsGo, h.1, Bool.false_eq_true, if_false]
      rw [ih cs h.2]

theorem stripHttps_no_https (s : List Char) :
    containsSub httpsChars (stripHttps s) = false :=
  stripHttpsGo_no_https s.length s le_rfl

theorem stripHttps_id (s : List Char) (h : containsSub httpsChars s = false) :
    stripHttps s = s :=
  stripHttpsGo_id s.length s h

/-! ### Lemmas about the BeautifulSoup passes -/

theorem infix_append_right (l x y : List Char) (h : l <:+: x) : l <:+: x ++ y := by
  obtain ⟨s, t, rfl⟩ := h
  exact ⟨s, t ++ y, by simp⟩

theorem infix_append_left (l x y : List Char) (h : l <:+: y) : l <:+: x ++ y := by
  obtain ⟨s, t, rfl⟩ := h
  exact ⟨x ++ s, t, by simp⟩

theorem getTextL_append (xs ys : List HNode) :
    getTextL (xs ++ ys) = getTextL xs ++ getTextL ys := by
  induction xs with
  | nil => simp [getTextL]
  | cons x xs ih =>
    simp only [List.cons_append, getTextL, List.append_eq, ih, List.append_assoc]

/-- Decomposition of the pruning pipeline over the head of a node list. -/
theorem pruneDoc_cons (n : HNode) (ns : List HNode) :
    pruneDoc (n :: ns) =
      (match removeCode n with
       | none => []
       | some m =>
         match removeSrcDiv m with
         | none => []
         | some p => [flattenA p]) ++ pruneDoc ns := by
  unfold pruneDoc
  cases hc : removeCode n with
  | none => simp [removeCodeL, hc]
  | some m =>
    cases hs : removeSrcDiv m with
    | none => simp [removeCodeL, removeSrcDivL, hc, hs]
    | some p => simp [removeCodeL, removeSrcDivL, flattenAL, hc, hs]

/-- Anchor flattening never changes the text content. -/
theorem getTextL_flattenAL (l : List HNode) :
    getTextL (flattenAL l) = getTextL l := by
  have H : ∀ (k : Nat) (l : List HNode), sizeOf l ≤ k →
      getTextL (flattenAL l) = getTextL l := by
    intro k
    induction k with
    | zero =>
      intro l hl
      cases l with
      | nil => rfl
      | cons n ns => simp at hl
    | succ k ih =>
      intro l hl
      match l with
      | [] => rfl
      | HNode.text s :: ns =>
        have hns : sizeOf ns ≤ k := by
          simp only [List.cons.sizeOf_spec, HNode.text.sizeOf_spec] at hl
          omega
        simp only [flattenAL, flattenA, getTextL]
        rw [ih ns hns]
      | HNode.elem tag cls attrs cs :: ns =>
        have hsz : sizeOf cs ≤ k ∧ sizeOf ns ≤ k := by
          simp only [List.cons.sizeOf_spec, HNode.elem.sizeOf_spec] at hl
          omega
        by_cases ht : tag = "a"
        · simp only [flattenAL, flattenA, ht, if_true, getTextL, getText]
          rw [ih ns hsz.2]
        · simp only [flattenAL, flattenA, ht, if_false, getTextL, getText]
          rw [ih cs hsz.1, ih ns hsz.2]
  exact H (sizeOf l) l le_rfl

theorem anchorText_inv (txt : List Char) (cs : List HNode)
    (h : anchorText txt cs = true) : cs = [HNode.text txt] := by
  match cs with
  | [] => simp [anchorText] at h
  | [HNode.text s] =>
    simp only [anchorText, decide_eq_true_eq] at h
    rw [h]
  | [HNode.elem t c a cs'] => simp [anchorText] at h
  | n :: m :: rest => simp [anchorText] at h

/-- Main lemma for the pruner: a hyperlink's visible text survives the
whole pruning pipeline as a segment of the rendered text. -/
theorem hasLinkL_infix (l : List HNode) (txt url : List Char)
    (h : hasLinkL txt url l = true) : txt <:+: getTextL (pruneDoc l) := by
  have H : ∀ (k : Nat) (l : List HNode) (txt url : List Char), sizeOf l ≤ k →
      hasLinkL txt url l = true → txt <:+: getTextL (pruneDoc l) := by
    intro k
    induction k with
    | zero =>
      intro l txt url hl hh
      cases l with
      | nil => simp [hasLinkL] at hh
      | cons n ns => simp at hl
    | succ k ih =>
      intro l txt url hl hh
      match l with
      | [] => simp [hasLinkL] at hh
      | n :: ns =>
        rw [pruneDoc_cons, getTextL_append]
        have hor : hasLink txt url n = true ∨ hasLinkL txt url ns = true := by
          simpa [hasLinkL] using hh
        have hns : sizeOf ns ≤ k := by
          cases n <;> simp only [List.cons.sizeOf_spec, HNode.text.sizeOf_spec,
            HNode.elem.sizeOf_spec] at hl <;> omega
        rcases hor with h1 | h2
        · cases n with
          | text s => simp [hasLink] at h1
          | elem tag cls attrs cs =>
            have hcs : sizeOf cs ≤ k := by
              simp only [List.cons.sizeOf_spec, HNode.elem.sizeOf_spec] at hl
              omega
            have hguard : ¬ (tag = "code" ∨ (tag = "div" ∧ "sourceCode" ∈ cls)) := by
              intro hg
              rw [hasLink] at h1
              rw [if_pos hg] at h1
              cases h1
            rw [hasLink, if_neg hguard] at h1
            have hcode : ¬ tag = "code" := fun hx => hguard (Or.inl hx)
            have hdiv : ¬ (tag = "div" ∧ "sourceCode" ∈ cls) :=
              fun hx => hguard (Or.inr hx)
            have hhead : removeCode (HNode.elem tag cls attrs cs) =
                some (HNode.elem tag cls attrs (removeCodeL cs)) := by
              simp [removeCode, hcode]
            have hhead2 : removeSrcDiv (HNode.elem tag cls attrs (removeCodeL cs)) =
                some (HNode.elem tag cls attrs (removeSrcDivL (removeCodeL cs))) := by
              simp only [removeSrcDiv, if_neg hdiv]
            simp only [hhead, hhead2]
            rw [Bool.or_eq_true] at h1
            rcases h1 with hmatch | hrec
            · -- the node itself is the hyperlink [txt](url)
              rw [Bool.and_eq_true, Bool.and_eq_true] at hmatch
              have htag : tag = "a" := of_decide_eq_true hmatch.1.1
              have hanch : anchorText txt cs = true := hmatch.1.2
              obtain rfl := anchorText_inv txt cs hanch
              apply infix_append_right
              simp [flattenA, htag, removeCodeL, removeCode, removeSrcDivL,
                removeSrcDiv, getTextL, getText]
            · -- the hyperlink sits deeper in the children
              have hchild := ih cs txt url hcs hrec
              unfold pruneDoc at hchild
              apply infix_append_right
              by_cases ht : tag = "a"
              · simp only [flattenA, ht, if_true, getTextL, getText, List.append_nil]
                rwa [getTextL_flattenAL] at hchild
              · simp only [flattenA, ht, if_false, getTextL, getText, List.append_nil]
                exact hchild
        · exact infix_append_left txt _ _ (ih ns txt url hns h2)
  exact H (sizeOf l) l txt url le_rfl h

/-! ### The highlighting loop over a segmented line

To settle the highlighting half of claim C5 in full generality — any
number of flagged words, several occurrences of one word on a line, any
positional order — the line is presented as a list of segments, each
either a gap (`false`) or a designated occurrence of a flagged word
(`true`).  The replacement loop is then computed word by word: at the
step for word `w` the partially highlighted line splits at the raw
occurrences of `w`, and Python's `replace` rewrites exactly those,
provided `w` can start nowhere inside the parts in between. -/

/-- `w` neither occurs inside `t` nor hangs over an end of `t`: no suffix
of `t` can be extended to an occurrence of `w`. -/
def noOcc (w t : List Char) : Bool :=
  (List.range t.length).all fun i =>
    !(isPre w (t.drop i)) && !(isPre (t.drop i) w)

/-- Join a list of parts with a separator between consecutive parts. -/
def joinSep (sep : List Char) : List (List Char) → List Char
  | [] => []
  | [t] => t
  | t :: ts => t ++ sep ++ joinSep sep ts

/-- Rendering of one segment once the words in `P` have been processed:
processed occurrences are wrapped in the ANSI markers, everything else is
still raw. -/
def renderSeg (P : List Word) (g : Bool × List Char) : List Char :=
  if g.1 = true ∧ g.2 ∈ P then ansiRed ++ g.2 ++ ansiReset else g.2

/-- Rendering of a segmented line after processing the words in `P`;
`renderSegs [] segs` is the original line. -/
def renderSegs (P : List Word) (segs : List (Bool × List Char)) : List Char :=
  (segs.map (renderSeg P)).join

/-- Split the rendered segments at the raw occurrences of `w`: the parts
between (and around) consecutive `w`-occurrences, rendered after `P`. -/
def splitAtW (w : List Char) (P : List Word) :
    List (Bool × List Char) → List (List Char)
  | [] => [[]]
  | g :: rest =>
    if g.1 = true ∧ g.2 = w then [] :: splitAtW w P rest
    else
      match splitAtW w P rest with
      | [] => [renderSeg P g]
      | t :: ts => (renderSeg P g ++ t) :: ts

theorem pyReplaceGo_nilstr (w r : List Char) (fuel : Nat) :
    pyReplaceGo w r fuel [] = [] := by
  cases fuel <;> rfl

theorem pyReplaceGo_fuel_eq (w r : List Char) :
    ∀ f g : Nat, ∀ s : List Char, s.length ≤ f → s.length ≤ g →
      pyReplaceGo w r f s = pyReplaceGo w r g s := by
  intro f
  induction f with
  | zero =>
    intro g s hf _
    obtain rfl : s = [] := List.length_eq_zero.mp (Nat.le_zero.mp hf)
    rw [pyReplaceGo_nilstr, pyReplaceGo_nilstr]
  | succ f ih =>
    intro g s hf hg
    cases s with
    | nil => rw [pyReplaceGo_nilstr, pyReplaceGo_nilstr]
    | cons c cs =>
      cases g with
      | zero => simp at hg
      | succ g' =>
        simp only [List.length_cons] at hf hg
        have hdl : (cs.drop (w.length - 1)).length ≤ cs.length := by
          rw [List.length_drop]
          omega
        by_cases hp : isPre w (c :: cs) = true
        · simp only [pyReplaceGo, hp, if_true]
          rw [ih g' (cs.drop (w.length - 1)) (by omega) (by omega)]
        · have hp' : isPre w (c :: cs) = false := Bool.of_not_eq_true hp
          simp only [pyReplaceGo, hp', Bool.false_eq_true, if_false]
          rw [ih g' cs (by omega) (by omega)]

theorem noOcc_spec (w t : List Char) (h : noOcc w t = true) (i : Nat)
    (hi : i < t.length) :
    isPre w (t.drop i) = false ∧ isPre (t.drop i) w = false := by
  unfold noOcc at h
  rw [List.all_eq_true] at h
  have := h i (List.mem_range.mpr hi)
  constructor
  · cases hx : isPre w (t.drop i) <;> simp [hx] at this ⊢
  · cases hx : isPre (t.drop i) w <;> simp [hx] at this ⊢

theorem noOcc_no_start (w t X : List Char) (h : noOcc w t = true) (i : Nat)
    (hi : i < t.length) : isPre w ((t ++ X).drop i) = false := by
  obtain ⟨h1, h2⟩ := noOcc_spec w t h i hi
  rw [List.drop_append_of_le_length (le_of_lt hi)]
  by_contra hcon
  have htrue : isPre w (t.drop i ++ X) = true := Bool.of_not_eq_false hcon
  rw [isPre_iff_leading] at htrue
  have hpre2 : t.drop i <+: t.drop i ++ X := List.prefix_append _ _
  rcases List.prefix_or_prefix_of_prefix htrue hpre2 with hc | hc
  · have hx : isPre w (t.drop i) = true := (isPre_iff_leading _ _).mpr hc
    rw [h1] at hx
    exact absurd hx (by decide)
  · have hx : isPre (t.drop i) w = true := (isPre_iff_leading _ _).mpr hc
    rw [h2] at hx
    exact absurd hx (by decide)

theorem noOcc_not_contains (w t : List Char) (hw : w ≠ [])
    (h : noOcc w t = true) : containsSub w t = false := by
  by_contra hcon
  have htrue := Bool.of_not_eq_false hcon
  rw [containsSub_iff_occurs] at htrue
  obtain ⟨s, u, hsu⟩ := htrue
  have hi : s.length < t.length := by
    rw [← hsu]
    simp only [List.length_append]
    have : 0 < w.length := List.length_pos.mpr hw
    omega
  obtain ⟨h1, _⟩ := noOcc_spec w t h s.length hi
  have hx : isPre w (t.drop s.length) = true := by
    rw [isPre_iff_leading, ← hsu, List.append_assoc, List.drop_left]
    exact List.prefix_append w u
  rw [h1] at hx
  exact absurd hx (by decide)

theorem joinSep_cons_cons (sep t u : List Char) (ts : List (List Char)) :
    joinSep sep (t :: u :: ts) = t ++ sep ++ joinSep sep (u :: ts) := rfl

theorem joinSep_append_head (sep u t : List Char) (ts : List (List Char)) :
    joinSep sep ((u ++ t) :: ts) = u ++ joinSep sep (t :: ts) := by
  cases ts with
  | nil => rfl
  | cons v ts => simp [joinSep, List.append_assoc]

theorem splitAtW_cons (w : List Char) (P : List Word) (g : Bool × List Char)
    (rest : List (Bool × List Char)) :
    splitAtW w P (g :: rest) =
      if g.1 = true ∧ g.2 = w then [] :: splitAtW w P rest
      else
        match splitAtW w P rest with
        | [] => [renderSeg P g]
        | t :: ts => (renderSeg P g ++ t) :: ts := rfl

theorem splitAtW_ne_nil (w : List Char) (P : List Word)
    (segs : List (Bool × List Char)) : splitAtW w P segs ≠ [] := by
  cases segs with
  | nil => simp [splitAtW]
  | cons g rest =>
    rw [splitAtW_cons]
    by_cases hg : g.1 = true ∧ g.2 = w
    · rw [if_pos hg]
      simp
    · rw [if_neg hg]
      cases splitAtW w P rest <;> simp

/-- Python `replace` over a string presented as parts joined by the
pattern, when the pattern can start nowhere inside a part: every
separator is rewritten and nothing else. -/
theorem pyReplace_joinSep (w r : List Char) (hw : w ≠ []) :
    ∀ ts : List (List Char), (∀ t ∈ ts, noOcc w t = true) →
      pyReplace (joinSep w ts) w r = joinSep r ts := by
  intro ts
  induction ts with
  | nil =>
    intro _
    show pyReplace [] w r = []
    unfold pyReplace
    rw [if_neg hw]
    exact pyReplaceGo_nilstr w r 0
  | cons t ts ih =>
    intro hts
    cases ts with
    | nil =>
      show pyReplace t w r = t
      unfold pyReplace
      rw [if_neg hw]
      exact pyReplaceGo_of_not_contains w r t.length t
        (noOcc_not_contains w t hw (hts t (List.mem_cons_self t [])))
    | cons u ts' =>
      have hnt : noOcc w t = true := hts t (List.mem_cons_self _ _)
      have hts' : ∀ x ∈ u :: ts', noOcc w x = true := fun x hx =>
        hts x (List.mem_cons_of_mem t hx)
      rw [joinSep_cons_cons, joinSep_cons_cons]
      unfold pyReplace
      rw [if_neg hw, List.append_assoc]
      have hlen : (t ++ (w ++ joinSep w (u :: ts'))).length =
          t.length + (w ++ joinSep w (u :: ts')).length := by
        simp
      rw [hlen, pyReplaceGo_append w r t (w ++ joinSep w (u :: ts')) _
        (fun i hi => noOcc_no_start w t _ hnt i hi)]
      have hwl : (w ++ joinSep w (u :: ts')).length =
          (w.length - 1 + (joinSep w (u :: ts')).length) + 1 := by
        have : 0 < w.length := List.length_pos.mpr hw
        simp only [List.length_append]
        omega
      rw [hwl, pyReplaceGo_head w r _ _ hw]
      rw [pyReplaceGo_fuel_eq w r _ (joinSep w (u :: ts')).length _ (by omega)
        le_rfl]
      have hrec : pyReplaceGo w r (joinSep w (u :: ts')).length
          (joinSep w (u :: ts')) = pyReplace (joinSep w (u :: ts')) w r := by
        unfold pyReplace
        rw [if_neg hw]
      rw [hrec, ih hts']
      simp [List.append_assoc]

theorem renderSegs_eq_joinSep (w : List Char) (P : List Word) (hP : w ∉ P) :
    ∀ segs : List (Bool × List Char),
      renderSegs P segs = joinSep w (splitAtW w P segs) := by
  intro segs
  induction segs with
  | nil => rfl
  | cons g rest ih =>
    rw [splitAtW_cons]
    by_cases hg : g.1 = true ∧ g.2 = w
    · rw [if_pos hg]
      have hsep : renderSeg P g = w := by
        unfold renderSeg
        rw [if_neg (fun hc => hP (hg.2 ▸ hc.2))]
        exact hg.2
      cases hsp : splitAtW w P rest with
      | nil => exact absurd hsp (splitAtW_ne_nil w P rest)
      | cons t ts =>
        rw [joinSep_cons_cons, ← hsp, ← ih]
        unfold renderSegs
        simp [hsep]
    · rw [if_neg hg]
      cases hsp : splitAtW w P rest with
      | nil => exact absurd hsp (splitAtW_ne_nil w P rest)
      | cons t ts =>
        simp only []
        rw [joinSep_append_head, ← hsp, ← ih]
        unfold renderSegs
        simp

theorem renderSeg_snoc_of_ne (P : List Word) (w : List Char)
    (g : Bool × List Char) (hg : ¬ (g.1 = true ∧ g.2 = w)) :
    renderSeg (P ++ [w]) g = renderSeg P g := by
  unfold renderSeg
  by_cases h1 : g.1 = true ∧ g.2 ∈ P
  · rw [if_pos h1, if_pos ⟨h1.1, List.mem_append_left _ h1.2⟩]
  · rw [if_neg h1, if_neg ?hc]
    case hc =>
      intro hc
      rcases List.mem_append.mp hc.2 with hp | hs
      · exact h1 ⟨hc.1, hp⟩
      · exact hg ⟨hc.1, List.mem_singleton.mp hs⟩

theorem renderSegs_wrap_eq_joinSep (w : List Char) (P : List Word)
    (_hP : w ∉ P) :
    ∀ segs : List (Bool × List Char),
      renderSegs (P ++ [w]) segs =
        joinSep (ansiRed ++ w ++ ansiReset) (splitAtW w P segs) := by
  intro segs
  induction segs with
  | nil => rfl
  | cons g rest ih =>
    rw [splitAtW_cons]
    by_cases hg : g.1 = true ∧ g.2 = w
    · rw [if_pos hg]
      have hsep : renderSeg (P ++ [w]) g = ansiRed ++ w ++ ansiReset := by
        unfold renderSeg
        rw [if_pos ⟨hg.1, List.mem_append_right _
          (List.mem_singleton.mpr hg.2)⟩, hg.2]
      cases hsp : splitAtW w P rest with
      | nil => exact absurd hsp (splitAtW_ne_nil w P rest)
      | cons t ts =>
        rw [joinSep_cons_cons, ← hsp, ← ih]
        unfold renderSegs
        simp [hsep, List.append_assoc]
    · rw [if_neg hg]
      cases hsp : splitAtW w P rest with
      | nil => exact absurd hsp (splitAtW_ne_nil w P rest)
      | cons t ts =>
        simp only []
        rw [joinSep_append_head, ← hsp, ← ih]
        unfold renderSegs
        simp [renderSeg_snoc_of_ne P w g hg]

theorem renderSegs_snoc_no_occ (w : List Char) (P : List Word)
    (segs : List (Bool × List Char))
    (h : ∀ s, (true, s) ∈ segs → s ≠ w) :
    renderSegs (P ++ [w]) segs = renderSegs P segs := by
  unfold renderSegs
  congr 1
  apply List.map_congr_left
  rintro ⟨b, s⟩ hgs
  apply renderSeg_snoc_of_ne
  rintro ⟨hb, hs⟩
  simp only at hb hs
  subst hb
  exact h s hgs hs

theorem splitAtW_of_no_occ (w : List Char) (P : List Word)
    (segs : List (Bool × List Char))
    (h : ∀ s, (true, s) ∈ segs → s ≠ w) :
    splitAtW w P segs = [renderSegs P segs] := by
  induction segs with
  | nil => rfl
  | cons g rest ih =>
    rw [splitAtW_cons]
    have hg : ¬ (g.1 = true ∧ g.2 = w) := by
      rintro ⟨hb, hs⟩
      obtain ⟨b, s⟩ := g
      simp only at hb hs
      subst hb
      exact h s (List.mem_cons_self _ _) hs
    rw [if_neg hg, ih (fun s hs hsw => h s (List.mem_cons_of_mem g hs) hsw)]
    unfold renderSegs
    simp

theorem containsSub_of_occ_seg (w : List Char)
    (segs : List (Bool × List Char)) (h : (true, w) ∈ segs) :
    containsSub w (renderSegs [] segs) = true := by
  induction segs with
  | nil => cases h
  | cons g rest ih =>
    rcases List.mem_cons.mp h with hgw | hmem
    · rw [containsSub_iff_occurs]
      refine ⟨[], renderSegs [] rest, ?_⟩
      unfold renderSegs
      rw [← hgw]
      show [] ++ w ++ (List.map (renderSeg []) rest).join =
        (List.map (renderSeg []) ((true, w) :: rest)).join
      unfold renderSeg
      simp
    · have hrest := ih hmem
      rw [containsSub_iff_occurs] at hrest ⊢
      obtain ⟨s, u, hsu⟩ := hrest
      refine ⟨renderSeg [] g ++ s, u, ?_⟩
      unfold renderSegs at hsu ⊢
      show renderSeg [] g ++ s ++ w ++ u =
        (List.map (renderSeg []) (g :: rest)).join
      have hjoin : (List.map (renderSeg []) (g :: rest)).join =
          renderSeg [] g ++ (List.map (renderSeg []) rest).join := by
        simp
      rw [hjoin, ← hsu]
      simp [List.append_assoc]

theorem renderSegs_all_processed (P : List Word)
    (segs : List (Bool × List Char)) (h : ∀ s, (true, s) ∈ segs → s ∈ P) :
    renderSegs P segs =
      (segs.map (fun g =>
        if g.1 = true then ansiRed ++ g.2 ++ ansiReset else g.2)).join := by
  unfold renderSegs
  congr 1
  apply List.map_congr_left
  rintro ⟨b, s⟩ hgs
  unfold renderSeg
  cases b with
  | false => simp
  | true => simp [h s hgs]

theorem getD_append_cons (pre : List Word) (w : Word) (suf : List Word) :
    (pre ++ w :: suf).getD pre.length [] = w := by
  induction pre with
  | nil => rfl
  | cons p pre ih => simpa using ih

/-- One step of the highlighting loop over a segmented line: if the word
has designated occurrences they all get wrapped, otherwise (whether or
not the guard on the original line fires) nothing changes. -/
theorem highlight_step (w : List Char) (pre : List Word)
    (segs : List (Bool × List Char)) (hw : w ≠ []) (hP : w ∉ pre)
    (hcond : ∀ t ∈ splitAtW w pre segs, noOcc w t = true) :
    (if containsSub w (renderSegs [] segs) then
      pyReplace (renderSegs pre segs) w (ansiRed ++ w ++ ansiReset)
    else renderSegs pre segs) = renderSegs (pre ++ [w]) segs := by
  by_cases hex : (true, w) ∈ segs
  · rw [if_pos (containsSub_of_occ_seg w segs hex)]
    rw [renderSegs_eq_joinSep w pre hP segs]
    rw [pyReplace_joinSep w _ hw _ hcond]
    rw [renderSegs_wrap_eq_joinSep w pre hP segs]
  · have hno : ∀ s, (true, s) ∈ segs → s ≠ w := by
      intro s hs hsw
      exact hex (hsw ▸ hs)
    have hsplit := splitAtW_of_no_occ w pre segs hno
    have hnc : containsSub w (renderSegs pre segs) = false := by
      apply noOcc_not_contains w _ hw
      apply hcond
      rw [hsplit]
      exact List.mem_singleton.mpr rfl
    rw [renderSegs_snoc_no_occ w pre segs hno]
    by_cases hc : containsSub w (renderSegs [] segs) = true
    · rw [if_pos hc]
      unfold pyReplace
      rw [if_neg hw]
      exact pyReplaceGo_of_not_contains w _ _ _ hnc
    · rw [if_neg hc]

/-- The whole highlighting loop over a segmented line. -/
theorem highlight_fold (words : List Word) (segs : List (Bool × List Char))
    (hne : ∀ w ∈ words, w ≠ []) (hnd : words.Nodup)
    (hcond : ∀ i, i < words.length →
      ∀ t ∈ splitAtW (words.getD i []) (words.take i) segs,
        noOcc (words.getD i []) t = true) :
    ∀ suf pre, words = pre ++ suf →
      List.foldl (fun acc w =>
        if containsSub w (renderSegs [] segs) then
          pyReplace acc w (ansiRed ++ w ++ ansiReset)
        else acc) (renderSegs pre segs) suf = renderSegs words segs := by
  intro suf
  induction suf with
  | nil =>
    intro pre hsplit
    rw [List.foldl_nil, hsplit, List.append_nil]
  | cons w suf ih =>
    intro pre hsplit
    rw [List.foldl_cons]
    have hwmem : w ∈ words := by
      rw [hsplit]
      exact List.mem_append_right pre (List.mem_cons_self w suf)
    have hP : w ∉ pre := by
      rw [hsplit] at hnd
      have hd := List.disjoint_of_nodup_append hnd
      intro hp
      exact hd hp (List.mem_cons_self w suf)
    have hlen : pre.length < words.length := by
      rw [hsplit]
      simp
    have hcw := hcond pre.length hlen
    rw [show words.getD pre.length [] = w from by
        rw [hsplit]; exact getD_append_cons pre w suf,
      show words.take pre.length = pre from by
        rw [hsplit]; exact List.take_left pre (w :: suf)] at hcw
    rw [highlight_step w pre segs (hne w hwmem) hP hcw]
    exact ih (pre ++ [w]) (by rw [hsplit]; simp)

theorem getD_mem_of_lt (l : List Line) (i : Nat) (h : i < l.length) :
    l.getD i [] ∈ l := by
  rw [List.getD_eq_getElem l [] h]
  exact List.getElem_mem h

/-! ### Claim theorems -/

/-- C10: invoked with a non-empty flagged-word list none of whose words
occurs as a substring of any line, the Context Reporter's set of lines to
print is empty and it fails indexing `sorted(print_lines)[0]` (modelled as
`none`) instead of printing an empty report: the operation has the
unstated precondition that at least one flagged word matches some line. -/
theorem c10_reporter_crashes_without_match (content : List Line)
    (words : List Word) (_hw : words ≠ [])
    (hnm : ∀ line ∈ content, ∀ w ∈ words, containsSub w line = false) :
    print_words_context content words = none := by
  apply print_words_context_eq_none
  have hml : matchLines words content = [] := by
    unfold matchLines
    rw [List.filter_eq_nil_iff]
    intro i hi
    rw [List.mem_range] at hi
    simp only [Bool.not_eq_true]
    unfold isMatchLine
    rw [List.any_eq_false]
    intro w hwmem
    rw [Bool.not_eq_true]
    exact hnm (content.getD i []) (getD_mem_of_lt content i hi) w hwmem
  rw [hml]
  rfl

/-- Witness for C10 at a concrete input. -/
theorem c10_reporter_crashes_without_match_witness :
    ([['x']] : List Word) ≠ [] ∧
      print_words_context [['a', 'b']] [['x']] = none :=
  ⟨by decide,
    c10_reporter_crashes_without_match [['a', 'b']] [['x']] (by decide) (by decide)⟩

/-- C4: for a match on line `N` the printed context contains `N` and its
clamped neighbours: `N - 1` exactly when `N` is not the first line,
`N + 1` exactly when `N` is not the last line, and never anything outside
the file bounds; when `N` is the only match line these are the only
printed lines. -/
theorem c4_context_window (content : List Line) (words : List Word) (N : Nat)
    (hN : N < content.length)
    (hM : isMatchLine words (content.getD N []) = true) :
    ∃ items, print_words_context content words = some items ∧
      N ∈ outIdxs items ∧
      (0 < N → N - 1 ∈ outIdxs items) ∧
      (N + 1 < content.length → N + 1 ∈ outIdxs items) ∧
      (∀ i ∈ outIdxs items, i < content.length) ∧
      (matchLines words content = [N] →
        outIdxs items = (if 0 < N then [N - 1] else []) ++ [N] ++
          (if N + 1 < content.length then [N + 1] else [])) := by
  have hNm : N ∈ matchLines words content :=
    (mem_matchLines words content N).mpr ⟨hN, hM⟩
  have hNp : N ∈ printList content.length (matchLines words content) :=
    (mem_printList content.length (matchLines words content) N).mpr
      ⟨N, hNm, Or.inl rfl⟩
  have hNs : N ∈ sortedPrint content.length (matchLines words content) :=
    (mem_sortedPrint content.length (matchLines words content) N).mpr hNp
  cases hsp : sortedPrint content.length (matchLines words content) with
  | nil => rw [hsp] at hNs; cases hNs
  | cons first rest =>
    refine ⟨renderLoop (lineWidth content.length) (highlighted words content)
      first (first :: rest),
      print_words_context_eq_some content words first rest hsp, ?_⟩
    have hout : outIdxs (renderLoop (lineWidth content.length)
        (highlighted words content) first (first :: rest)) = first :: rest :=
      outIdxs_renderLoop _ _ _ _
    have hmem : ∀ i, i ∈ outIdxs (renderLoop (lineWidth content.length)
        (highlighted words content) first (first :: rest)) ↔
        i ∈ printList content.length (matchLines words content) := by
      intro i
      rw [hout, ← hsp, mem_sortedPrint]
    refine ⟨(hmem N).mpr hNp, ?_, ?_, ?_, ?_⟩
    · intro h0
      exact (hmem (N - 1)).mpr ((mem_printList _ _ _).mpr
        ⟨N, hNm, Or.inr (Or.inl ⟨h0, rfl⟩)⟩)
    · intro h1
      exact (hmem (N + 1)).mpr ((mem_printList _ _ _).mpr
        ⟨N, hNm, Or.inr (Or.inr ⟨h1, rfl⟩)⟩)
    · intro i hi
      obtain ⟨m, hmML, hcase⟩ := (mem_printList _ _ _).mp ((hmem i).mp hi)
      have hmlt : m < content.length :=
        ((mem_matchLines words content m).mp hmML).1
      rcases hcase with rfl | ⟨_, rfl⟩ | ⟨hlt, rfl⟩
      · exact hmlt
      · omega
      · exact hlt
    · intro hml
      have hsp' : sortedPrint content.length [N] = first :: rest := by
        rw [← hml]
        exact hsp
      rw [hout, ← hsp']
      have hnodup₁ : (sortedPrint content.length [N]).Nodup :=
        ((List.perm_insertionSort (· ≤ ·) _).nodup_iff).mpr
          (nodup_printList content.length [N])
      have hsort₁ : (sortedPrint content.length [N]).Sorted (· ≤ ·) :=
        List.sorted_insertionSort (· ≤ ·) _
      have hmemE : ∀ i, i ∈ sortedPrint content.length [N] ↔
          i ∈ (if 0 < N then [N - 1] else []) ++ [N] ++
            (if N + 1 < content.length then [N + 1] else []) := by
        intro i
        rw [mem_sortedPrint, mem_printList]
        by_cases h0 : 0 < N <;> by_cases h1 : N + 1 < content.length <;>
          simp [h0, h1] <;> omega
      have hnodup₂ : ((if 0 < N then [N - 1] else []) ++ [N] ++
          (if N + 1 < content.length then [N + 1] else [])).Nodup := by
        by_cases h0 : 0 < N <;> by_cases h1 : N + 1 < content.length <;>
          simp [h0, h1] <;> omega
      have hsort₂ : ((if 0 < N then [N - 1] else []) ++ [N] ++
          (if N + 1 < content.length then [N + 1] else [])).Sorted (· ≤ ·) := by
        by_cases h0 : 0 < N <;> by_cases h1 : N + 1 < content.length <;>
          simp [h0, h1, List.Sorted, List.pairwise_cons] <;> omega
      exact List.eq_of_perm_of_sorted
        ((List.perm_ext_iff_of_nodup hnodup₁ hnodup₂).mpr hmemE) hsort₁ hsort₂

/-- Witness for C4 at a concrete input: a match on the middle line of a
three-line file. -/
theorem c4_context_window_witness :
    ∃ items, print_words_context [['a'], ['w'], ['b']] [['w']] = some items ∧
      1 ∈ outIdxs items ∧
      (0 < 1 → 1 - 1 ∈ outIdxs items) ∧
      (1 + 1 < ([['a'], ['w'], ['b']] : List Line).length →
        1 + 1 ∈ outIdxs items) ∧
      (∀ i ∈ outIdxs items, i < ([['a'], ['w'], ['b']] : List Line).length) ∧
      (matchLines [['w']] [['a'], ['w'], ['b']] = [1] →
        outIdxs items = (if 0 < 1 then [1 - 1] else []) ++ [1] ++
          (if 1 + 1 < ([['a'], ['w'], ['b']] : List Line).length
            then [1 + 1] else [])) :=
  c4_context_window [['a'], ['w'], ['b']] [['w']] 1 (by decide) (by decide)

theorem mem_printList_matchLines_lt (content : List Line) (words : List Word)
    (i : Nat) (h : i ∈ printList content.length (matchLines words content)) :
    i < content.length := by
  obtain ⟨m, hmML, hcase⟩ := (mem_printList _ _ _).mp h
  have hmlt : m < content.length := ((mem_matchLines words content m).mp hmML).1
  rcases hcase with rfl | ⟨_, rfl⟩ | ⟨hlt, rfl⟩
  · exact hmlt
  · omega
  · exact hlt

/-- C7 (amended): every printed context line carries its 1-based line
number right-aligned with spaces to the width
`len(str(len(content_lines) + 1))` — the digit count of `L + 1` for a
file of `L` lines, not of `L` as the claim stated. -/
theorem c7_line_number_width (content : List Line) (words : List Word)
    (items : List OutItem) (h : print_words_context content words = some items) :
    ∀ p s t, OutItem.line p s t ∈ items →
      ∃ k, s = List.replicate k ' ' ++ natStr (p + 1) ++ [':'] ∧
        s.length = (natStr (content.length + 1)).length + 1 := by
  obtain ⟨first, rest, hsp, hitems⟩ :=
    print_words_context_some_inv content words items h
  intro p s t hmem
  rw [hitems] at hmem
  obtain ⟨hp, hs, _⟩ := line_mem_renderLoop _ _ _ _ _ _ _ hmem
  have hplt : p < content.length := by
    apply mem_printList_matchLines_lt content words p
    rw [← mem_sortedPrint, hsp]
    exact hp
  have hlen : (natStr (p + 1)).length ≤ (natStr (content.length + 1)).length :=
    natStr_length_mono (by omega)
  refine ⟨(natStr (content.length + 1)).length - (natStr (p + 1)).length, ?_, ?_⟩
  · rw [hs]
    unfold numStr lineWidth
    simp [List.append_assoc]
  · rw [hs]
    unfold numStr lineWidth
    simp only [List.length_append, List.length_replicate, List.length_cons,
      List.length_nil]
    omega

/-- C7, counterexample to the claim as stated: a nine-line file has
largest line number 9, one digit wide, but the printed number labels are
two characters wide (plus the colon), because the code computes
`len(str(len(content_lines) + 1))` = `len("10")` = 2. -/
theorem c7_counterexample :
    print_words_context (['w'] :: List.replicate 8 ['z']) [['w']] =
      some [OutItem.line 0 [' ', '1', ':'] (ansiRed ++ ['w'] ++ ansiReset),
            OutItem.line 1 [' ', '2', ':'] ['z']] ∧
    ([' ', '1', ':'] : List Char).length ≠ (natStr 9).length + 1 :=
  ⟨by decide, by decide⟩

/-- C8: the context lines are printed in strictly ascending order of line
index, and the output is exactly the rendering that emits a separator rule
immediately before a line precisely when its index exceeds the previously
printed line's index by more than 1, with no separator before the first
printed line (`specRender`). -/
theorem c8_gap_separators (content : List Line) (words : List Word)
    (items : List OutItem) (h : print_words_context content words = some items) :
    ∃ ps, List.Sorted (· < ·) ps ∧ outIdxs items = ps ∧
      items = specRender (lineWidth content.length)
        (highlighted words content) ps := by
  obtain ⟨first, rest, hsp, hitems⟩ :=
    print_words_context_some_inv content words items h
  refine ⟨first :: rest, ?_, ?_, ?_⟩
  · rw [← hsp]
    exact sortedPrint_sorted_lt content.length (matchLines words content)
  · rw [hitems]
    exact outIdxs_renderLoop _ _ _ _
  · rw [hitems]
    exact renderLoop_head_eq_specRender _ _ _ _

/-- Witness for C8 at a concrete input. -/
theorem c8_gap_separators_witness :
    ∃ ps, List.Sorted (· < ·) ps ∧
      outIdxs [OutItem.line 0 ['1', ':'] (ansiRed ++ ['w'] ++ ansiReset),
        OutItem.line 1 ['2', ':'] ['z']] = ps ∧
      [OutItem.line 0 ['1', ':'] (ansiRed ++ ['w'] ++ ansiReset),
        OutItem.line 1 ['2', ':'] ['z']] =
        specRender (lineWidth ([['w'], ['z']] : List Line).length)
          (highlighted [['w']] [['w'], ['z']]) ps :=
  c8_gap_separators [['w'], ['z']] [['w']]
    [OutItem.line 0 ['1', ':'] (ansiRed ++ ['w'] ++ ansiReset),
      OutItem.line 1 ['2', ':'] ['z']] (by decide)

/-- C1: when the run terminates normally, the exit code is 1 exactly when
some checked file has a non-empty flagged-word list and 0 exactly when
every checked file's flagged-word list is empty. -/
theorem c1_aggregator_exit_code (or : Oracles) (args : Args)
    (g b : List CheckedFile) (c : Nat) (out : List RItem)
    (hcf : checkFiles or args args.files = Except.ok (g, b))
    (h : mainRun or args = RunOutcome.normal c out) :
    (c = 1 ↔ ∃ cf ∈ g ++ b, cf.misspelled_words ≠ []) ∧
    (c = 0 ↔ ∀ cf ∈ g ++ b, cf.misspelled_words = []) := by
  obtain ⟨hgood, hbad, _⟩ := checkFiles_spec or args args.files g b hcf
  rw [mainRun_ok or args g b hcf] at h
  by_cases hb : b = []
  · rw [if_pos hb] at h
    obtain ⟨hc, _⟩ := RunOutcome.normal.inj h.symm
    subst hb
    subst hc
    constructor
    · constructor
      · intro h10
        cases h10
      · rintro ⟨cf, hcf', hne⟩
        rw [List.append_nil] at hcf'
        exact absurd (hgood cf hcf').1 hne
    · constructor
      · intro _
        intro cf hcf'
        rw [List.append_nil] at hcf'
        exact (hgood cf hcf').1
      · intro _
        rfl
  · rw [if_neg hb] at h
    cases hrb : reportBad or b with
    | none => rw [hrb] at h; cases h
    | some items =>
      rw [hrb] at h
      simp only [] at h
      obtain ⟨hc, _⟩ := RunOutcome.normal.inj h.symm
      subst hc
      obtain ⟨cf, hcfb⟩ := List.exists_mem_of_ne_nil b hb
      constructor
      · constructor
        · intro _
          exact ⟨cf, List.mem_append_right g hcfb, (hbad cf hcfb).1⟩
        · intro _
          rfl
      · constructor
        · intro h10
          cases h10
        · intro hall
          exact absurd (hall cf (List.mem_append_right g hcfb)) (hbad cf hcfb).1

/-- Witness for C1 at a concrete run with one bad file. -/
theorem c1_aggregator_exit_code_witness :
    ((1 : Nat) = 1 ↔ ∃ cf ∈ ([] : List CheckedFile) ++
        [CheckedFile.mk "a" [['w']]], cf.misspelled_words ≠ []) ∧
    ((1 : Nat) = 0 ↔ ∀ cf ∈ ([] : List CheckedFile) ++
        [CheckedFile.mk "a" [['w']]], cf.misspelled_words = []) :=
  c1_aggregator_exit_code
    ⟨fun _ => Except.ok [], true, fun _ => Except.ok ['w'], fun _ => [['w']]⟩
    ⟨["a"], "en_US", "d"⟩ [] [CheckedFile.mk "a" [['w']]] 1
    [RItem.context "a" [OutItem.line 0 ['1', ':'] (ansiRed ++ ['w'] ++ ansiReset)],
      RItem.badWords "a" [['w']]]
    rfl rfl

/-- C2: a file is classified good exactly when the engine's stripped
standard output is empty (whitespace-only), bad otherwise; good files
store the empty word list, bad files the non-empty parsed engine output;
and the two classifications partition the checked paths (counted with
multiplicity, so every path lands in exactly one of the two lists). -/
theorem c2_good_bad_partition (or : Oracles) (args : Args) (fps : List String)
    (g b : List CheckedFile) (h : checkFiles or args fps = Except.ok (g, b)) :
    (∀ cf ∈ g, cf.misspelled_words = [] ∧
      ∃ pr sout, or.prune cf.filepath = Except.ok pr ∧
        or.aspell pr = Except.ok sout ∧ pyStrip sout = []) ∧
    (∀ cf ∈ b, cf.misspelled_words ≠ [] ∧
      ∃ pr sout, or.prune cf.filepath = Except.ok pr ∧
        or.aspell pr = Except.ok sout ∧ pyStrip sout ≠ [] ∧
        cf.misspelled_words = parseWords sout) ∧
    (∀ fp, (g.map CheckedFile.filepath).count fp +
      (b.map CheckedFile.filepath).count fp = fps.count fp) :=
  checkFiles_spec or args fps g b h

/-- Oracle fixture for the C2 witness: pruning returns the path's own
characters and the engine flags `w` unless the input is `g`. -/
def c2Or : Oracles :=
  ⟨fun fp => Except.ok (String.data fp), true,
    fun s => Except.ok (if s = ['g'] then ([] : List Char) else ['w']),
    fun _ => [['w']]⟩

/-- Witness for C2 at a concrete run with one clean and one flagged file. -/
theorem c2_good_bad_partition_witness :
    ((CheckedFile.mk "g" []).misspelled_words = [] ∧
      ∃ pr sout, c2Or.prune (CheckedFile.mk "g" []).filepath = Except.ok pr ∧
        c2Or.aspell pr = Except.ok sout ∧ pyStrip sout = []) ∧
    ((CheckedFile.mk "b" [['w']]).misspelled_words ≠ [] ∧
      ∃ pr sout, c2Or.prune (CheckedFile.mk "b" [['w']]).filepath = Except.ok pr ∧
        c2Or.aspell pr = Except.ok sout ∧ pyStrip sout ≠ [] ∧
        (CheckedFile.mk "b" [['w']]).misspelled_words = parseWords sout) ∧
    ((([CheckedFile.mk "g" []]).map CheckedFile.filepath).count "g" +
      (([CheckedFile.mk "b" [['w']]]).map CheckedFile.filepath).count "g" =
        (["g", "b"] : List String).count "g") :=
  ⟨(c2_good_bad_partition c2Or ⟨["g", "b"], "en_US", "d"⟩ ["g", "b"]
      [CheckedFile.mk "g" []] [CheckedFile.mk "b" [['w']]] rfl).1
    (CheckedFile.mk "g" []) (by decide),
   (c2_good_bad_partition c2Or ⟨["g", "b"], "en_US", "d"⟩ ["g", "b"]
      [CheckedFile.mk "g" []] [CheckedFile.mk "b" [['w']]] rfl).2.1
    (CheckedFile.mk "b" [['w']]) (by decide),
   (c2_good_bad_partition c2Or ⟨["g", "b"], "en_US", "d"⟩ ["g", "b"]
      [CheckedFile.mk "g" []] [CheckedFile.mk "b" [['w']]] rfl).2.2 "g"⟩

/-- C9: every flagged-word list printed by the aggregator is the
deduplication of the stored misspelled-word sequence of the corresponding
bad file — each distinct word appears exactly once — while the stored
sequence itself keeps duplicates (`parseWords` applies no deduplication:
engine output `"foo\nfoo"` is stored as two copies of `foo`). -/
theorem c9_dedup_reported_words (or : Oracles) (args : Args)
    (g b : List CheckedFile) (c : Nat) (out : List RItem)
    (hcf : checkFiles or args args.files = Except.ok (g, b))
    (h : mainRun or args = RunOutcome.normal c out) :
    (∀ fp ws, RItem.badWords fp ws ∈ out →
      ∃ cf ∈ b, cf.filepath = fp ∧ ws = cf.misspelled_words.dedup ∧
        ws.Nodup ∧ ∀ w, w ∈ ws ↔ w ∈ cf.misspelled_words) ∧
    parseWords ['f', 'o', 'o', '\n', 'f', 'o', 'o'] =
      [['f', 'o', 'o'], ['f', 'o', 'o']] := by
  constructor
  · intro fp ws hmem
    rw [mainRun_ok or args g b hcf] at h
    by_cases hb : b = []
    · rw [if_pos hb] at h
      obtain ⟨_, hout⟩ := RunOutcome.normal.inj h.symm
      rw [hout] at hmem
      by_cases hg : g = [] <;> simp [hg] at hmem
    · rw [if_neg hb] at h
      cases hrb : reportBad or b with
      | none => rw [hrb] at h; cases h
      | some items =>
        rw [hrb] at h
        simp only [] at h
        obtain ⟨_, hout⟩ := RunOutcome.normal.inj h.symm
        rw [hout] at hmem
        rcases List.mem_append.mp hmem with hmem1 | hmem2
        · by_cases hg : g = [] <;> simp [hg] at hmem1
        · obtain ⟨cf, hcfb, hfp, hws⟩ :=
            reportBad_badWords_inv or b items fp ws hrb hmem2
          refine ⟨cf, hcfb, hfp, hws, ?_, ?_⟩
          · rw [hws]
            exact List.nodup_dedup cf.misspelled_words
          · intro w
            rw [hws]
            exact List.mem_dedup
  · decide

/-- Witness for C9 at a concrete run whose engine output repeats a word. -/
theorem c9_dedup_reported_words_witness :
    (∃ cf ∈ [CheckedFile.mk "a" [['w'], ['w']]], cf.filepath = "a" ∧
        ([['w']] : List Word) = cf.misspelled_words.dedup ∧
        ([['w']] : List Word).Nodup ∧
        ∀ w, w ∈ ([['w']] : List Word) ↔ w ∈ cf.misspelled_words) ∧
    parseWords ['f', 'o', 'o', '\n', 'f', 'o', 'o'] =
      [['f', 'o', 'o'], ['f', 'o', 'o']] :=
  ⟨(c9_dedup_reported_words
      ⟨fun _ => Except.ok [], true, fun _ => Except.ok ['w', '\n', 'w'],
        fun _ => [['w']]⟩
      ⟨["a"], "en_US", "d"⟩ [] [CheckedFile.mk "a" [['w'], ['w']]] 1
      [RItem.context "a" [OutItem.line 0 ['1', ':']
        (ansiRed ++ (ansiRed ++ ['w'] ++ ansiReset) ++ ansiReset)],
       RItem.badWords "a" [['w']]]
      rfl rfl).1 "a" [['w']] (by decide),
   (c9_dedup_reported_words
      ⟨fun _ => Except.ok [], true, fun _ => Except.ok ['w', '\n', 'w'],
        fun _ => [['w']]⟩
      ⟨["a"], "en_US", "d"⟩ [] [CheckedFile.mk "a" [['w'], ['w']]] 1
      [RItem.context "a" [OutItem.line 0 ['1', ':']
        (ansiRed ++ (ansiRed ++ ['w'] ++ ansiReset) ++ ansiReset)],
       RItem.badWords "a" [['w']]]
      rfl rfl).2⟩

/-- C6 (amended): when the dictionary path is a non-empty string naming no
existing file, at least one file matched the pattern, and pruning the
first file succeeds, the run aborts with the fatal dictionary-not-found
`SpellcheckError` before any spellcheck engine invocation — the outcome is
the same for every possible engine — and the process exits with status 1. -/
theorem c6_missing_dictionary_aborts (or : Oracles) (args : Args)
    (fp : String) (rest : List String) (pr : List Char)
    (hne : args.dictionary_path ≠ "")
    (hdict : or.dictExists = false)
    (hfiles : args.files = fp :: rest)
    (hprune : or.prune fp = Except.ok pr) :
    (∀ asp : List Char → Except String (List Char),
      mainRun { or with aspell := asp } args = RunOutcome.fatal dictMsg) ∧
    exitOf (mainRun or args) = 1 := by
  have hmain : ∀ asp : List Char → Except String (List Char),
      mainRun { or with aspell := asp } args = RunOutcome.fatal dictMsg := by
    intro asp
    have hcf : checkFiles { or with aspell := asp } args args.files =
        Except.error dictMsg := by
      rw [hfiles, checkFiles_cons]
      have hpr : ({ or with aspell := asp } : Oracles).prune fp =
          Except.ok pr := hprune
      rw [hpr]
      simp only []
      rw [if_pos ⟨hne, hdict⟩]
    unfold mainRun
    rw [hcf]
  refine ⟨hmain, ?_⟩
  have h2 := hmain or.aspell
  have heta : ({ or with aspell := or.aspell } : Oracles) = or := rfl
  rw [heta] at h2
  rw [h2]
  rfl

/-- Witness for C6 (amended) at a concrete run, with one concrete engine
substituted for the universally quantified one. -/
theorem c6_missing_dictionary_aborts_witness :
    mainRun { (⟨fun _ => Except.ok [], false, fun _ => Except.ok [],
        fun _ => []⟩ : Oracles) with aspell := fun _ => Except.ok ['q'] }
      ⟨["f"], "en_US", "nodict"⟩ = RunOutcome.fatal dictMsg ∧
    exitOf (mainRun
      ⟨fun _ => Except.ok [], false, fun _ => Except.ok [], fun _ => []⟩
      ⟨["f"], "en_US", "nodict"⟩) = 1 :=
  ⟨(c6_missing_dictionary_aborts
      ⟨fun _ => Except.ok [], false, fun _ => Except.ok [], fun _ => []⟩
      ⟨["f"], "en_US", "nodict"⟩ "f" [] [] (by decide) rfl rfl rfl).1
    (fun _ => Except.ok ['q']),
   (c6_missing_dictionary_aborts
      ⟨fun _ => Except.ok [], false, fun _ => Except.ok [], fun _ => []⟩
      ⟨["f"], "en_US", "nodict"⟩ "f" [] [] (by decide) rfl rfl rfl).2⟩

/-- C6, counterexample to the claim as stated: with a dictionary path that
references no existing file, a run whose glob pattern matches no files
exits normally with status 0 (the dictionary is only checked inside the
per-file loop), and a run invoked with the empty dictionary path — which
also references no existing file — skips the existence check entirely
(Python truthiness) and exits 0. -/
theorem c6_counterexample :
    mainRun ⟨fun _ => Except.ok [], false, fun _ => Except.ok [], fun _ => []⟩
        ⟨[], "en_US", "nodict"⟩ = RunOutcome.normal 0 [] ∧
    mainRun ⟨fun _ => Except.ok [], false, fun _ => Except.ok [], fun _ => []⟩
        ⟨["f"], "en_US", ""⟩ =
      RunOutcome.normal 0 [RItem.cleanList ["f"]] :=
  ⟨rfl, rfl⟩

/-- C5 (amended): a line is marked a match line exactly when some flagged
word is a case-sensitive substring of it (not word-boundary-aware); and
for a line presented as gaps and designated occurrences of pairwise
distinct flagged words, if at each replacement step the word being
processed can start nowhere in the partially highlighted line except at
its designated occurrences (no overlapping occurrences, no collision with
other words or with the inserted ANSI markers), then the printed copy
wraps every designated occurrence of every flagged word in the highlight
marker — for any number of flagged words, several occurrences of one word
on the line, and any positional order. -/
theorem c5_match_lines_and_highlighting :
    (∀ (words : List Word) (content : List Line) (N : Nat),
      N ∈ matchLines words content ↔
        N < content.length ∧ ∃ w ∈ words, w <:+: content.getD N []) ∧
    (∀ (words : List Word) (segs : List (Bool × List Char)),
      (∀ w ∈ words, w ≠ []) → words.Nodup →
      (∀ g ∈ segs, g.1 = true → g.2 ∈ words) →
      (∀ i, i < words.length →
        ∀ t ∈ splitAtW (words.getD i []) (words.take i) segs,
          noOcc (words.getD i []) t = true) →
      highlightLine words (renderSegs [] segs) =
        (segs.map (fun g =>
          if g.1 = true then ansiRed ++ g.2 ++ ansiReset else g.2)).join) := by
  constructor
  · intro words content N
    rw [mem_matchLines, isMatchLine_iff]
  · intro words segs hne hnd hocc hcond
    unfold highlightLine
    rw [highlight_fold words segs hne hnd hcond words [] rfl]
    exact renderSegs_all_processed words segs
      (fun s hs => hocc (true, s) hs rfl)

/-- Witness for C5 at concrete inputs: the match-line criterion on a
one-line file, and the line `wr th wr` highlighted for the flagged words
`th`, `wr`, `qz` — three words, one of them occurring twice, in
positional order opposite to the word-list order, one absent. -/
theorem c5_match_lines_and_highlighting_witness :
    (0 ∈ matchLines [['w']] [['w']] ↔
      0 < ([['w']] : List Line).length ∧
        ∃ w ∈ [['w']], w <:+: ([['w']] : List Line).getD 0 []) ∧
    highlightLine [['t', 'h'], ['w', 'r'], ['q', 'z']]
        (renderSegs [] [(true, ['w', 'r']), (false, [' ']),
          (true, ['t', 'h']), (false, [' ']), (true, ['w', 'r'])]) =
      (([(true, ['w', 'r']), (false, [' ']), (true, ['t', 'h']),
          (false, [' ']), (true, ['w', 'r'])] :
            List (Bool × List Char)).map (fun g =>
        if g.1 = true then ansiRed ++ g.2 ++ ansiReset else g.2)).join :=
  ⟨c5_match_lines_and_highlighting.1 [['w']] [['w']] 0,
   c5_match_lines_and_highlighting.2 [['t', 'h'], ['w', 'r'], ['q', 'z']]
     [(true, ['w', 'r']), (false, [' ']), (true, ['t', 'h']),
       (false, [' ']), (true, ['w', 'r'])]
     (by decide) (by decide) (by decide) (by decide)⟩

/-- C5, counterexample to the claim as stated: with the two distinct
flagged words `ab` and `b` on the line `ab`, the line is a match line and
`ab` occurs on it, yet in the printed copy the occurrence of `ab` is not
wrapped in the highlight marker (the second replacement rewrites the `b`
inside the already wrapped `ab`, so the marker-wrapped `ab` never occurs
in the output). -/
theorem c5_counterexample :
    isMatchLine [['a', 'b'], ['b']] ['a', 'b'] = true ∧
    containsSub ['a', 'b'] ['a', 'b'] = true ∧
    containsSub (ansiRed ++ ['a', 'b'] ++ ansiReset)
      (highlightLine [['a', 'b'], ['b']] ['a', 'b']) = false :=
  ⟨by decide, by decide, by decide⟩

/-- C3 (amended): for a document containing the hyperlink `[txt](url)`
(not buried in removed code/source blocks), if the URL is an
`https://`-target and the pruned document's rendered text contains no
`https://` token (in particular the link's visible text is not itself a
bare URL), then the pruner's output contains the visible text and does
not contain the URL. -/
theorem c3_link_text_kept_url_dropped (d : List HNode) (txt url : List Char)
    (hlink : hasLinkL txt url d = true)
    (hurl : httpsChars <+: url)
    (hclean : containsSub httpsChars (getTextL (pruneDoc d)) = false) :
    txt <:+: prune_content d ∧ ¬ url <:+: prune_content d := by
  constructor
  · show txt <:+: stripHttps (renderMarkdown (pruneDoc d))
    unfold renderMarkdown
    rw [stripHttps_id _ hclean]
    exact hasLinkL_infix d txt url hlink
  · intro hcon
    obtain ⟨u, hu⟩ := hurl
    obtain ⟨s, t, hst⟩ := hcon
    have hh : httpsChars <:+: prune_content d := by
      refine ⟨s, u ++ t, ?_⟩
      rw [← hst, ← hu]
      simp
    have hfalse := stripHttps_no_https (renderMarkdown (pruneDoc d))
    have htrue : containsSub httpsChars
        (stripHttps (renderMarkdown (pruneDoc d))) = true :=
      (containsSub_iff_occurs _ _).mpr hh
    rw [hfalse] at htrue
    cases htrue

/-- Witness for C3 at a concrete document: a prose line with one
`https://`-link whose text is ordinary prose. -/
theorem c3_link_text_kept_url_dropped_witness :
    ['x'] <:+: prune_content
      [HNode.elem "a" [] [("href", httpsChars ++ ['u'])] [HNode.text ['x']],
        HNode.text [' ', 'y']] ∧
    ¬ (httpsChars ++ ['u']) <:+: prune_content
      [HNode.elem "a" [] [("href", httpsChars ++ ['u'])] [HNode.text ['x']],
        HNode.text [' ', 'y']] :=
  c3_link_text_kept_url_dropped
    [HNode.elem "a" [] [("href", httpsChars ++ ['u'])] [HNode.text ['x']],
      HNode.text [' ', 'y']]
    ['x'] (httpsChars ++ ['u']) (by decide) ⟨['u'], rfl⟩ (by decide)

/-- C3, counterexample to the claim as stated: for the document
`[https://a](https://a)` — a hyperlink whose visible text is the URL
itself, the shape pandoc produces for a bare autolink — the pruned output
contains neither the URL nor the visible text, because the `https://`
regex removes the surviving text; so "pruned text contains `text`" fails. -/
theorem c3_counterexample :
    hasLinkL (httpsChars ++ ['a']) (httpsChars ++ ['a'])
      [HNode.elem "a" [] [("href", httpsChars ++ ['a'])]
        [HNode.text (httpsChars ++ ['a'])]] = true ∧
    ¬ (httpsChars ++ ['a']) <:+: prune_content
      [HNode.elem "a" [] [("href", httpsChars ++ ['a'])]
        [HNode.text (httpsChars ++ ['a'])]] :=
  ⟨by decide, by decide⟩

/-- Witness for C7 (amended) at a concrete nine-line file, instantiated at
the first printed line. -/
theorem c7_line_number_width_witness :
    ∃ k, ([' ', '1', ':'] : List Char) =
        List.replicate k ' ' ++ natStr (0 + 1) ++ [':'] ∧
      ([' ', '1', ':'] : List Char).length =
        (natStr ((['w'] :: List.replicate 8 ['z'] : List Line).length + 1)).length
          + 1 :=
  c7_line_number_width (['w'] :: List.replicate 8 ['z']) [['w']]
    [OutItem.line 0 [' ', '1', ':'] (ansiRed ++ ['w'] ++ ansiReset),
     OutItem.line 1 [' ', '2', ':'] ['z']] (by decide)
    0 [' ', '1', ':'] (ansiRed ++ ['w'] ++ ansiReset) (by decide)
